import Mathlib

/-!
Shallow embedding of the tg-cloud-backend catalog service (src/main.py).

The service keeps two tables in an external store:
  * `items` — the per-user file/folder forest (id, user_id, name, type,
    file_id, size, parent_id, created_at);
  * `users` — (id, username, is_blocked).

Modelling decisions:
  * Item and user ids are opaque strings (UUIDs) in the source; they are
    modelled as `Nat`.  Fresh ids handed out by the store on insert are
    modelled by a monotone counter threaded next to the store.
  * `created_at` is a store-assigned timestamp; it is modelled by the same
    monotone counter, which preserves the only property the code uses
    (newer rows have larger values).
  * The store is a `List Item` / `List UserRow`; supabase `.eq` filters
    become `List.filter`, `.single()` becomes `List.find?`, inserts append,
    deletes filter, updates map.
  * Python string methods `.lower()` / `.endswith(...)` are modelled over
    `List Char` so that concrete instances evaluate by `decide`.
-/

namespace TgCloud

/-- The `type` column of the `items` table: `"folder"` or `"file"`. -/
inductive ItemType
  | folder
  | file
deriving DecidableEq, Repr

/-- A row of the `items` table. -/
structure Item where
  id : Nat
  user_id : Nat
  name : String
  type : ItemType
  file_id : Option String
  size : Option Nat
  parent_id : Option Nat
  created_at : Nat
deriving DecidableEq, Repr

/-- The `items` table. -/
abbrev Store := List Item

/-- A row of the `users` table. -/
structure UserRow where
  id : Nat
  username : String
  is_blocked : Bool
deriving DecidableEq, Repr

/-- main.py line 23: `ADMIN_USERNAME = "astermaneiro"`. -/
def ADMIN_USERNAME : String := "astermaneiro"

/-- HTTP error classifications raised by the endpoints. -/
inductive ApiError
  | forbidden
  | serverError
deriving DecidableEq, Repr

/-- Python `s.lower()` (modelled per character). -/
def lowerStr (s : String) : String := ⟨s.data.map Char.toLower⟩

/-- Python `s.endswith(suf)`. -/
def endsW (s suf : String) : Bool := suf.data.isSuffixOf s.data

/-- Python `a or b` for an optional string: `None` and `""` are falsy. -/
def pyOr (o : Option String) (d : String) : String :=
  match o with
  | none => d
  | some s => if s = "" then d else s

/-- supabase `.table("users").select(..).eq("id", uid).single()`. -/
def findUser (users : List UserRow) (uid : Nat) : Option UserRow :=
  users.find? (fun u => u.id == uid)

/-- main.py lines 31-42, `check_is_blocked`.  Returns `true` iff the helper
raises `HTTPException(403, "USER_BLOCKED")`.  `storeError` models a failing
store query; `.single()` on an absent row also raises, and both are caught
by the bare `except: pass`, so the check falls through (fails open). -/
def check_is_blocked (storeError : Bool) (users : List UserRow) (uid : Nat) : Bool :=
  if storeError then false
  else
    match findUser users uid with
    | none => false
    | some u =>
      if u.username = ADMIN_USERNAME then false
      else u.is_blocked

/-- Insert a row into `items`; the store assigns `id` and `created_at`
(both modelled by the counter `next`). -/
def insertItem (s : Store) (next : Nat) (uid : Nat) (nm : String) (ty : ItemType)
    (fid : Option String) (sz : Option Nat) (parent : Option Nat) : Store × Nat :=
  (s ++ [⟨next, uid, nm, ty, fid, sz, parent, next⟩], next + 1)

/-- main.py lines 432-438, `POST /api/rename`: unconditional update of
`name` on every row whose `id` matches; returns `{"status": "ok"}`. -/
def rename_item (s : Store) (item_id : Nat) (new_name : String) : Store × String :=
  (s.map (fun i => if i.id == item_id then { i with name := new_name } else i), ("ok"))

/-- main.py lines 510-516, `POST /api/move_file`: unconditional update of
`parent_id` on every row whose `id` matches; returns `{"status": "ok"}`. -/
def move_file (s : Store) (file_id : Nat) (folder_id : Option Nat) : Store × String :=
  (s.map (fun i => if i.id == file_id then { i with parent_id := folder_id } else i), ("ok"))

/-- The `folder_id` query parameter of `GET /api/files`: a missing value,
the empty string (falsy in Python), the literal sentinels `"null"` and
`"root"`, or an actual id. -/
inductive FolderParam
  | absent
  | empty
  | nullLit
  | rootLit
  | real (n : Nat)
deriving DecidableEq, Repr

/-- Rank of the textual `type` column under string comparison:
`"folder" > "file"`, so descending order puts folders first. -/
def typeRank : ItemType → Nat
  | .folder => 1
  | .file => 0

/-- The listing order of `GET /api/files`:
`.order("type", desc=True).order("created_at", desc=True)`. -/
def listingLE (a b : Item) : Bool :=
  decide (typeRank b.type < typeRank a.type) ||
    (decide (typeRank a.type = typeRank b.type) && decide (b.created_at ≤ a.created_at))

/-- main.py lines 400-409, `GET /api/files`.  Branches exactly as the code:
`mode == 'global'` → non-folders of the user; `mode == 'folders'` → folders
of the user; otherwise, when `folder_id` is truthy and neither `"null"` nor
`"root"`, items with that parent; else items with `parent_id` null. -/
def get_files (users : List UserRow) (s : Store) (user_id : Nat)
    (folder_id : FolderParam) (mode : String) : Except ApiError (List Item) :=
  if check_is_blocked false users user_id then .error .forbidden
  else
    let base := s.filter (fun i => i.user_id == user_id)
    let filtered :=
      if mode = ("global") then base.filter (fun i => !(i.type == ItemType.folder))
      else if mode = ("folders") then base.filter (fun i => i.type == ItemType.folder)
      else
        match folder_id with
        | .real n => base.filter (fun i => i.parent_id == some n)
        | _ => base.filter (fun i => i.parent_id == none)
    .ok (filtered.mergeSort listingLE)

/-- Python `name.endswith(('.jpg', '.jpeg', '.png'))`. -/
def isPhotoName (nm : String) : Bool :=
  endsW nm (".jpg") || endsW nm (".jpeg") || endsW nm (".png")

/-- Python `name.endswith(('.mp4', '.mov'))`. -/
def isVideoName (nm : String) : Bool :=
  endsW nm (".mp4") || endsW nm (".mov")

/-- Rounding to two decimal places.  Python's `round(x, 2)` on a float is
modelled as exact rational rounding to the nearest multiple of 1/100
(`round` rounds half up; the spec accepts half-up or half-even, and no
claim instance hits a tie). -/
def roundTo2 (q : ℚ) : ℚ := (round (q * 100) : ℚ) / 100

/-- The JSON body returned by `GET /api/profile`. -/
structure ProfileStats where
  total_files : Nat
  total_size_mb : ℚ
  photos : Nat
  videos : Nat
  docs : Nat
  folders : Nat
deriving DecidableEq, Repr

/-- main.py lines 372-398, `GET /api/profile`.  The source accumulates in a
single loop over the user's rows; the loop's counters are expressed as
`countP`/`foldl` over the same rows with the same `elif` classification
chain (`i['size'] or 0` maps both null and 0 to 0, as `Option.getD 0`). -/
def get_profile_stats (users : List UserRow) (s : Store) (uid : Nat) :
    Except ApiError ProfileStats :=
  if check_is_blocked false users uid then .error .forbidden
  else
    let items := s.filter (fun i => i.user_id == uid)
    let total_size_bytes : Nat := items.foldl (fun acc i => acc + i.size.getD 0) 0
    .ok
      { total_files := items.countP (fun i => !(i.type == ItemType.folder))
        total_size_mb := roundTo2 ((total_size_bytes : ℚ) / (1024 * 1024))
        photos := items.countP (fun i =>
          !(i.type == ItemType.folder) && isPhotoName (lowerStr i.name))
        videos := items.countP (fun i =>
          !(i.type == ItemType.folder) && !(isPhotoName (lowerStr i.name)) &&
            isVideoName (lowerStr i.name))
        docs := items.countP (fun i =>
          !(i.type == ItemType.folder) && !(isPhotoName (lowerStr i.name)) &&
            !(isVideoName (lowerStr i.name)))
        folders := items.countP (fun i => i.type == ItemType.folder) }

/-- main.py lines 411-418, `POST /api/delete_all`: removes every item owned
by the user. -/
def delete_all_data (users : List UserRow) (s : Store) (uid : Nat) :
    Except ApiError (Store × String) :=
  if check_is_blocked false users uid then .error .forbidden
  else .ok (s.filter (fun i => !(i.user_id == uid)), ("ok"))

/-- The `parent_id` body field of `POST /api/create_folder`: missing, the
falsy empty string, the literal `"null"`, or an id.  (Any other string is
kept verbatim by the code; under the numeric-id embedding that is the
`real` case.) -/
inductive ParentParam
  | absent
  | empty
  | nullLit
  | real (n : Nat)
deriving DecidableEq, Repr

/-- main.py lines 420-430, `POST /api/create_folder`: `"null"` and `""`
normalise to null, then a folder row is inserted. -/
def create_folder (users : List UserRow) (s : Store) (next : Nat) (uid : Nat)
    (nm : String) (parent_id : ParentParam) : Except ApiError (Store × Nat × String) :=
  if check_is_blocked false users uid then .error .forbidden
  else
    let parent : Option Nat :=
      match parent_id with
      | .real n => some n
      | _ => none
    let (s', next') := insertItem s next uid nm ItemType.folder none none parent
    .ok (s', next', ("ok"))

/-- main.py lines 440-450, `POST /api/delete`, non-recursive delete: fetch
the row's `type`; if it is a folder, re-parent every item whose `parent_id`
matches to null; then delete the row itself. -/
def delete_item (s : Store) (item_id : Nat) : Store × String :=
  let found := s.filter (fun i => i.id == item_id)
  let s1 : Store :=
    match found with
    | [] => s
    | i0 :: _ =>
      if i0.type == ItemType.folder then
        s.map (fun i : Item =>
          if i.parent_id == some item_id then { i with parent_id := none } else i)
      else s
  (s1.filter (fun i => !(i.id == item_id)), ("deleted"))

/-- main.py lines 456-463, the inner `recursive_del` of
`POST /api/delete_folder_recursive`: fetch the direct children, recurse
into folder children, delete file children, then delete the node itself.
The `fuel` argument bounds the recursion depth; for a well-formed store the
depth of any child chain is at most the number of rows, so the fuel chosen
by `delete_folder_recursive_api` is never exhausted. -/
def recursive_del : Nat → Store → Nat → Store
  | 0, s, _ => s
  | fuel + 1, s, folder_id =>
    let children := s.filter (fun i => i.parent_id == some folder_id)
    let s1 := children.foldl (fun acc child =>
      if child.type == ItemType.folder then recursive_del fuel acc child.id
      else acc.filter (fun i => !(i.id == child.id))) s
    s1.filter (fun i => !(i.id == folder_id))

/-- main.py lines 452-468, `POST /api/delete_folder_recursive`. -/
def delete_folder_recursive_api (s : Store) (item_id : Nat) : Store × String :=
  (recursive_del (s.length + 1) s item_id, ("deleted_recursive"))

/-- main.py lines 470-495, `POST /api/download`.  Only the access-control
gate is catalog-relevant: a redirected download (truthy `recipient_id`
different from the caller) requires the recipient to be the administrator;
a plain download checks the caller's block flag.  The actual chat send is
external transport, modelled as success. -/
def download_file (users : List UserRow) (uid : Nat) (recipient_id : Option Nat) :
    Except ApiError String :=
  let target : Nat :=
    match recipient_id with
    | some r => if r == 0 then uid else r
    | none => uid
  if target == uid then
    if check_is_blocked false users uid then .error .forbidden
    else .ok ("ok")
  else
    match findUser users target with
    | some u => if u.username = ADMIN_USERNAME then .ok ("ok") else .error .forbidden
    | none => .error .forbidden

/-- A document / video / audio attachment of an inbound chat message. -/
structure TgFile where
  file_id : String
  file_name : Option String
  file_size : Option Nat
deriving DecidableEq, Repr

/-- One entry of the `photo` size array of an inbound chat message. -/
structure TgPhotoSize where
  file_id : String
  file_size : Option Nat
deriving DecidableEq, Repr

/-- An inbound chat message carrying at least one attachment, as matched by
the `F.document | F.photo | F.video | F.audio` handler. -/
structure TgMessage where
  from_user : Nat
  date : String
  document : Option TgFile
  photo : Option (List TgPhotoSize)
  video : Option TgFile
  audio : Option TgFile
deriving DecidableEq, Repr

/-- main.py lines 234-273, `handle_files`, the ingestion handler.  The
handler never writes the `users` table (the upsert lives in the `/start`
handler, main.py lines 133-136), so `users` is returned unchanged.  A
blocked sender gets a refusal message and nothing is stored.  The `if`/
`elif` chain reads the document, else the last photo size (`photo[-1]`;
an empty size array would raise and nothing would be stored), else the
video; an audio message leaves `file_id` as `None`, so nothing is stored. -/
def handle_files (users : List UserRow) (s : Store) (next : Nat) (msg : TgMessage) :
    List UserRow × Store × Nat :=
  if check_is_blocked false users msg.from_user then (users, s, next)
  else
    let info : Option (String × String × Option Nat) :=
      match msg.document with
      | some d => some (d.file_id, pyOr d.file_name ("doc"), d.file_size)
      | none =>
        match msg.photo with
        | some ps =>
          match ps.getLast? with
          | some p => some (p.file_id, ("img_") ++ msg.date ++ (".jpg"), p.file_size)
          | none => none
        | none =>
          match msg.video with
          | some v => some (v.file_id, pyOr v.file_name ("video.mp4"), v.file_size)
          | none => none
    match info with
    | some (fid, nm, sz) =>
      let (s', next') := insertItem s next msg.from_user nm ItemType.file (some fid) sz none
      (users, s', next')
    | none => (users, s, next)

/-- Direct-child relation derived from the `items` table: `childStep s p c`
holds when some row has id `c` and `parent_id = p`. -/
def childStep (s : Store) (p c : Nat) : Prop :=
  ∃ i ∈ s, i.id = c ∧ i.parent_id = some p

/-- `desc s a d`: `d` is a strict descendant of `a` (a nonempty chain of
`parent_id` links leads from `d` up to `a`). -/
def desc (s : Store) (a d : Nat) : Prop :=
  Relation.TransGen (childStep s) a d

/-- `descOrSelf s a d`: `d` is `a` itself or a descendant of `a`. -/
def descOrSelf (s : Store) (a d : Nat) : Prop :=
  d = a ∨ desc s a d

/-- Demonstration store for the Move bug: one folder at the root. -/
def moveBugStore : Store :=
  [⟨1, 7, ("Docs"), ItemType.folder, none, none, none, 0⟩]

/-- The re-parenting non-recursive delete applies to a surviving row. -/
def reParent (item_id : Nat) (i : Item) : Item :=
  if i.parent_id == some item_id then { i with parent_id := none } else i

/-- Ids referencing `item_id` as parent reference a folder row: the slice of
invariant I1 that non-recursive delete relies on. -/
def ParentRefsFolder (s : Store) (item_id : Nat) : Prop :=
  ∀ i ∈ s, i.parent_id = some item_id →
    ∃ f ∈ s, f.id = item_id ∧ f.type = ItemType.folder

/-- The claim's byte total: the sum of `size` over the user's items with
folders contributing 0. -/
def specOwnedSize (s : Store) (uid : Nat) : Nat :=
  ((s.filter (fun i => i.user_id == uid)).map
    (fun i => if i.type == ItemType.folder then 0 else i.size.getD 0)).sum

/-- Demonstration `users` table: a blocked ordinary user and the
administrator, also flagged blocked. -/
def demoUsers : List UserRow :=
  [⟨7, ("eve"), true⟩, ⟨9, ADMIN_USERNAME, true⟩]

/-- An inbound message carrying only an audio attachment. -/
def audioOnlyMsg : TgMessage :=
  { from_user := 7, date := ("d"), document := none, photo := none,
    video := none, audio := some ⟨("afid"), none, none⟩ }

/-- Fuel-bounded walk up the `parent_id` chain; `true` iff the chain reaches
the root (or a dangling reference — the store has no foreign keys) within
`fuel` steps. -/
def chainToRoot : Nat → Store → Option Nat → Bool
  | _, _, none => true
  | 0, _, some _ => false
  | fuel + 1, s, some p =>
    match s.find? (fun i => i.id == p) with
    | none => true
    | some it => chainToRoot fuel s it.parent_id

/-- Decidable form of invariant I1's termination half: every row's parent
chain reaches the root within `s.length` steps. -/
def rootedB (s : Store) : Bool :=
  s.all (fun i => chainToRoot s.length s i.parent_id)

/-- Decidable form of invariant I1's typing half: every non-null
`parent_id` names a folder row of the store. -/
def parentsValidB (s : Store) : Bool :=
  s.all (fun i =>
    match i.parent_id with
    | none => true
    | some p => s.any (fun f => f.id == p && f.type == ItemType.folder))

/-- Propositional form of `parentsValidB`. -/
def ParentsValidP (s : Store) : Prop :=
  ∀ i ∈ s, ∀ p, i.parent_id = some p →
    ∃ f ∈ s, f.id = p ∧ f.type = ItemType.folder

/-- No id is its own strict descendant. -/
def Acyclic (s : Store) : Prop := ∀ a, ¬ desc s a a

/-- A downward chain of ids: `ChainL s p l` means `l` lists ids reachable
from `p` by consecutive `childStep`s. -/
inductive ChainL (s : Store) : Nat → List Nat → Prop
  | nil {p : Nat} : ChainL s p []
  | cons {p c : Nat} {l : List Nat} : childStep s p c → ChainL s c l → ChainL s p (c :: l)

/-- Every downward chain from `F` is shorter than `fuel`. -/
def chainBound (s : Store) (F : Nat) (fuel : Nat) : Prop :=
  ∀ l, ChainL s F l → l.length < fuel

/-- Demonstration store for recursive delete: root folder 1 containing
folder 2 which contains file 3, plus an unrelated root file 4. -/
def recDelStore : Store :=
  [⟨1, 7, ("A"), ItemType.folder, none, none, none, 0⟩,
   ⟨2, 7, ("B"), ItemType.folder, none, none, some 1, 1⟩,
   ⟨3, 7, ("c.png"), ItemType.file, some ("h3"), some 5, some 2, 2⟩,
   ⟨4, 7, ("d.txt"), ItemType.file, some ("h4"), some 6, none, 3⟩]

/-- The shape-and-content view of a subtree used to state the copy
isomorphism: folder nodes carry their name and children, file nodes carry
name, file handle and size. -/
inductive CatTree
  | folderNode (nm : String) (children : List CatTree)
  | fileNode (nm : String) (fid : Option String) (sz : Option Nat)

/-- Fuel-bounded extraction of the forest below id `root` (the fuel bounds
the depth; for a rooted store, `s.length` covers every chain). -/
def extractChildren : Nat → Store → Nat → List CatTree
  | 0, _, _ => []
  | k + 1, s, root =>
    (s.filter (fun i => i.parent_id == some root)).map (fun i =>
      match i.type with
      | .folder => .folderNode i.name (extractChildren k s i.id)
      | .file => .fileNode i.name i.file_id i.size)

/-- The view of one row at extraction depth `k`. -/
def nodeOf (k : Nat) (s : Store) (i : Item) : CatTree :=
  match i.type with
  | .folder => .folderNode i.name (extractChildren k s i.id)
  | .file => .fileNode i.name i.file_id i.size

/-- main.py lines 58-86, `copy_folder_recursive`: look up the source row
(no-op when absent, line 61); insert a folder clone for the target user
under `target_parent`; then for every direct child of the source, recurse
(folders) or insert a file clone reusing `file_id`/`size`/`name` under the
new folder.  The fuel bounds the recursion depth exactly as for
`recursive_del`. -/
def copy_folder_recursive : Nat → Store × Nat → Nat → Nat → Option Nat → Store × Nat
  | 0, st, _, _, _ => st
  | fuel + 1, (s, next), source, target_user, target_parent =>
    match s.find? (fun i => i.id == source) with
    | none => (s, next)
    | some src =>
      let s1 := insertItem s next target_user src.name ItemType.folder none none target_parent
      let newFolderId := next
      let children := s1.1.filter (fun i => i.parent_id == some source)
      children.foldl (fun st item =>
        if item.type == ItemType.folder then
          copy_folder_recursive fuel st item.id target_user (some newFolderId)
        else
          insertItem st.1 st.2 target_user item.name ItemType.file
            item.file_id item.size (some newFolderId)) s1

/-- The copy operation as invoked on a live store (fuel covering any chain
of a rooted store). -/
def copy_folder_recursive_api (s : Store) (next : Nat) (source target_user : Nat)
    (target_parent : Option Nat) : Store × Nat :=
  copy_folder_recursive (s.length + 1) (s, next) source target_user target_parent

/-- The per-child relation between a source row and its clone established
by the copy fold: same name, owned by the target user, attached to the new
folder; folder children have extraction-equal subtrees, file children share
handle and size. -/
def PairSpec (k : Nat) (s : Store) (tu nfId : Nat) (full : Store)
    (c top : Item) : Prop :=
  top.user_id = tu ∧ top.name = c.name ∧ top.parent_id = some nfId ∧
    ((c.type = ItemType.folder ∧ top.type = ItemType.folder ∧
        extractChildren k full top.id = extractChildren k s c.id) ∨
      (c.type = ItemType.file ∧ top.type = ItemType.file ∧
        top.file_id = c.file_id ∧ top.size = c.size))

/-- Demonstration store for the copy: folder 0 containing file 1. -/
def copyDemoStore : Store :=
  [⟨0, 1, ("F"), ItemType.folder, none, none, none, 0⟩,
   ⟨1, 1, ("a.png"), ItemType.file, some ("h"), some 5, some 0, 1⟩]

/-- C1 — the claim is the spec's normative contract (section 4.2 Move and
section 9 of the spec flag the missing guard as a bug in the observed code).
The code performs the `parent_id` update unconditionally: `Move(1, 1)` on a
store containing item `1` returns status `"ok"` and leaves item `1` with
`parent_id = some 1`, making it its own ancestor — the very cycle the claim
requires the engine to reject with `InvalidMove`. -/
theorem move_file_self_cycle_bug :
    (move_file moveBugStore 1 (some 1)).2 = ("ok") ∧
    (move_file moveBugStore 1 (some 1)).1 =
      [⟨1, 7, ("Docs"), ItemType.folder, none, none, some 1, 0⟩] ∧
    desc (move_file moveBugStore 1 (some 1)).1 1 1 := by
  refine ⟨rfl, rfl, Relation.TransGen.single ?_⟩
  exact ⟨⟨1, 7, ("Docs"), ItemType.folder, none, none, some 1, 0⟩, by decide, rfl, rfl⟩

/-- C9 — the block check fails open: it raises (returns `true`) exactly when
the store query succeeded, a `users` row for `uid` exists, that row is
flagged blocked, and its username is not the administrator's.  Absent rows
and store errors fall through silently. -/
theorem check_is_blocked_fails_open (storeError : Bool) (users : List UserRow) (uid : Nat) :
    check_is_blocked storeError users uid = true ↔
      storeError = false ∧
        ∃ u, findUser users uid = some u ∧
          u.is_blocked = true ∧ u.username ≠ ADMIN_USERNAME := by
  cases storeError with
  | true => simp [check_is_blocked]
  | false =>
    cases h : findUser users uid with
    | none => simp [check_is_blocked, h]
    | some u =>
      by_cases hadm : u.username = ADMIN_USERNAME
      · simp [check_is_blocked, h, hadm]
      · simp [check_is_blocked, h, hadm]

/-- C10 — Rename and Move on an id matching no stored item both return
status `"ok"` and leave the items table unchanged (the update matches zero
rows). -/
theorem rename_move_missing_id_noop (s : Store) (item_id : Nat) (new_name : String)
    (folder_id : Option Nat) (h : ∀ i ∈ s, i.id ≠ item_id) :
    rename_item s item_id new_name = (s, ("ok")) ∧
    move_file s item_id folder_id = (s, ("ok")) := by
  constructor
  · unfold rename_item
    refine Prod.ext ?_ rfl
    simp only
    rw [List.map_congr_left, List.map_id]
    intro i hi
    simp [h i hi]
  · unfold move_file
    refine Prod.ext ?_ rfl
    simp only
    rw [List.map_congr_left, List.map_id]
    intro i hi
    simp [h i hi]

/-- Witness for `rename_move_missing_id_noop` at a concrete store and id. -/
theorem rename_move_missing_id_noop_witness :
    (∀ i ∈ moveBugStore, i.id ≠ 5) ∧
    rename_item moveBugStore 5 ("x") = (moveBugStore, ("ok")) ∧
    move_file moveBugStore 5 none = (moveBugStore, ("ok")) := by
  refine ⟨by decide, ?_⟩
  exact rename_move_missing_id_noop moveBugStore 5 ("x") none (by decide)

theorem reParent_id (item_id : Nat) (i : Item) : (reParent item_id i).id = i.id := by
  unfold reParent
  split <;> rfl

theorem reParent_parent_ne (item_id : Nat) (i : Item) :
    (reParent item_id i).parent_id ≠ some item_id := by
  unfold reParent
  split
  · simp
  · next h => simpa using h

theorem reParent_eq_self (item_id : Nat) (i : Item) (h : i.parent_id ≠ some item_id) :
    reParent item_id i = i := by
  unfold reParent
  simp [h]

/-- C2 — non-recursive Delete: always reports success; every surviving row
is an original row, re-parented to null exactly when it was a direct child
of the deleted folder; only the `item_id` row disappears; no surviving row
references the deleted id; and a missing id is a no-op. -/
theorem delete_item_spec (s : Store) (item_id : Nat)
    (hnd : (s.map Item.id).Nodup) (hpv : ParentRefsFolder s item_id) :
    (delete_item s item_id).2 = ("deleted") ∧
    (∀ i ∈ s, i.id ≠ item_id → reParent item_id i ∈ (delete_item s item_id).1) ∧
    (∀ j ∈ (delete_item s item_id).1, j.id ≠ item_id ∧ j.parent_id ≠ some item_id) ∧
    (∀ j ∈ (delete_item s item_id).1, ∃ i ∈ s, i.id ≠ item_id ∧ j = reParent item_id i) ∧
    ((∀ i ∈ s, i.id ≠ item_id) → (delete_item s item_id).1 = s) := by
  rcases hfound : s.filter (fun i => i.id == item_id) with _ | ⟨i0, rest⟩
  · -- no row matches the id: s1 = s and the final filter removes nothing
    have hnone : ∀ i ∈ s, i.id ≠ item_id := by
      intro i hi hid
      have : i ∈ s.filter (fun i => i.id == item_id) := by
        simp [List.mem_filter, hi, hid]
      simp [hfound] at this
    have hnoref : ∀ i ∈ s, i.parent_id ≠ some item_id := by
      intro i hi hp
      obtain ⟨f, hf, hfid, -⟩ := hpv i hi hp
      exact hnone f hf hfid
    have hres : (delete_item s item_id).1 = s := by
      unfold delete_item
      rw [hfound]
      simp only
      rw [List.filter_eq_self]
      intro a ha
      simpa using hnone a ha
    refine ⟨rfl, ?_, ?_, ?_, fun _ => hres⟩
    · intro i hi hid
      rw [hres, reParent_eq_self _ _ (hnoref i hi)]
      exact hi
    · intro j hj
      rw [hres] at hj
      exact ⟨hnone j hj, hnoref j hj⟩
    · intro j hj
      rw [hres] at hj
      exact ⟨j, hj, hnone j hj, (reParent_eq_self _ _ (hnoref j hj)).symm⟩
  · -- the row exists; i0 is the first match
    have hi0 : i0 ∈ s ∧ i0.id = item_id := by
      have : i0 ∈ s.filter (fun i => i.id == item_id) := by
        rw [hfound]; exact List.mem_cons_self _ _
      have h2 := List.mem_filter.mp this
      exact ⟨h2.1, by simpa using h2.2⟩
    by_cases hty : i0.type == ItemType.folder
    · -- folder branch: children re-parented, then the row removed
      have hres : (delete_item s item_id).1 =
          (s.map (reParent item_id)).filter (fun i => !(i.id == item_id)) := by
        unfold delete_item
        rw [hfound]
        simp only [hty, if_pos]
        rfl
      refine ⟨rfl, ?_, ?_, ?_, ?_⟩
      · intro i hi hid
        rw [hres]
        refine List.mem_filter.mpr ⟨List.mem_map_of_mem _ hi, ?_⟩
        simp [reParent_id, hid]
      · intro j hj
        rw [hres] at hj
        obtain ⟨hjm, hjid⟩ := List.mem_filter.mp hj
        obtain ⟨i, hi, hij⟩ := List.mem_map.mp hjm
        refine ⟨by simpa using hjid, ?_⟩
        rw [← hij]
        exact reParent_parent_ne _ _
      · intro j hj
        rw [hres] at hj
        obtain ⟨hjm, hjid⟩ := List.mem_filter.mp hj
        obtain ⟨i, hi, hij⟩ := List.mem_map.mp hjm
        refine ⟨i, hi, ?_, hij.symm⟩
        intro hid
        rw [← hij] at hjid
        simp [reParent_id, hid] at hjid
      · intro hnone
        exact absurd hi0.2 (hnone i0 hi0.1)
    · -- non-folder branch: with I1 nothing references the id, so only the
      -- row itself is removed
      have hnoref : ∀ i ∈ s, i.parent_id ≠ some item_id := by
        intro i hi hp
        obtain ⟨f, hf, hfid, hfty⟩ := hpv i hi hp
        have : f = i0 :=
          List.inj_on_of_nodup_map hnd hf hi0.1 (by rw [hfid, hi0.2])
        rw [this] at hfty
        simp [hfty] at hty
      have hres : (delete_item s item_id).1 = s.filter (fun i => !(i.id == item_id)) := by
        unfold delete_item
        rw [hfound]
        simp only [hty]
        rfl
      refine ⟨rfl, ?_, ?_, ?_, ?_⟩
      · intro i hi hid
        rw [hres, reParent_eq_self _ _ (hnoref i hi)]
        exact List.mem_filter.mpr ⟨hi, by simpa using hid⟩
      · intro j hj
        rw [hres] at hj
        obtain ⟨hjm, hjid⟩ := List.mem_filter.mp hj
        exact ⟨by simpa using hjid, hnoref j hjm⟩
      · intro j hj
        rw [hres] at hj
        obtain ⟨hjm, hjid⟩ := List.mem_filter.mp hj
        exact ⟨j, hjm, by simpa using hjid, (reParent_eq_self _ _ (hnoref j hjm)).symm⟩
      · intro hnone
        exact absurd hi0.2 (hnone i0 hi0.1)

/-- Witness for `delete_item_spec`: deleting folder `1` from a store with a
folder and one child re-parents the child to the root. -/
theorem delete_item_spec_witness :
    ((([⟨1, 7, ("Docs"), ItemType.folder, none, none, none, 0⟩,
        ⟨2, 7, ("a.png"), ItemType.file, some ("h"), some 5, some 1, 1⟩] : Store).map
          Item.id).Nodup ∧
      ParentRefsFolder
        [⟨1, 7, ("Docs"), ItemType.folder, none, none, none, 0⟩,
         ⟨2, 7, ("a.png"), ItemType.file, some ("h"), some 5, some 1, 1⟩] 1) ∧
    (delete_item
        [⟨1, 7, ("Docs"), ItemType.folder, none, none, none, 0⟩,
         ⟨2, 7, ("a.png"), ItemType.file, some ("h"), some 5, some 1, 1⟩] 1).2 = ("deleted") ∧
    reParent 1 ⟨2, 7, ("a.png"), ItemType.file, some ("h"), some 5, some 1, 1⟩ ∈
      (delete_item
        [⟨1, 7, ("Docs"), ItemType.folder, none, none, none, 0⟩,
         ⟨2, 7, ("a.png"), ItemType.file, some ("h"), some 5, some 1, 1⟩] 1).1 := by
  have hnd : (([⟨1, 7, ("Docs"), ItemType.folder, none, none, none, 0⟩,
      ⟨2, 7, ("a.png"), ItemType.file, some ("h"), some 5, some 1, 1⟩] : Store).map
        Item.id).Nodup := by decide
  have hpv : ParentRefsFolder
      [⟨1, 7, ("Docs"), ItemType.folder, none, none, none, 0⟩,
       ⟨2, 7, ("a.png"), ItemType.file, some ("h"), some 5, some 1, 1⟩] 1 := by
    intro i hi hp
    exact ⟨⟨1, 7, ("Docs"), ItemType.folder, none, none, none, 0⟩, by decide, rfl, rfl⟩
  have h := delete_item_spec
    [⟨1, 7, ("Docs"), ItemType.folder, none, none, none, 0⟩,
     ⟨2, 7, ("a.png"), ItemType.file, some ("h"), some 5, some 1, 1⟩] 1 hnd hpv
  exact ⟨⟨hnd, hpv⟩, h.1, h.2.1 _ (by decide) (by decide)⟩

theorem listingLE_trans (a b c : Item) (hab : listingLE a b = true)
    (hbc : listingLE b c = true) : listingLE a c = true := by
  simp only [listingLE, Bool.or_eq_true, Bool.and_eq_true, decide_eq_true_eq] at *
  omega

theorem listingLE_total (a b : Item) : (listingLE a b || listingLE b a) = true := by
  simp only [listingLE, Bool.or_eq_true, Bool.and_eq_true, decide_eq_true_eq]
  omega

theorem sorted_listing (l : List Item) :
    (l.mergeSort listingLE).Pairwise (fun a b => listingLE a b = true) :=
  List.sorted_mergeSort listingLE_trans listingLE_total l

theorem listing_perm (p q : Item → Bool) (s : Store) :
    (((s.filter p).filter q).mergeSort listingLE).Perm (s.filter (fun i => p i && q i)) := by
  have h1 : (s.filter p).filter q = s.filter (fun i => p i && q i) := by
    rw [List.filter_filter]
    exact List.filter_congr (fun a _ => Bool.and_comm _ _)
  rw [h1]
  exact List.mergeSort_perm _ _

/-- C6 — the List endpoint.  Strict mode with an id returns exactly the
user's items under that parent; strict mode with a missing / `"null"` /
`"root"` parameter returns exactly the user's root items; global mode
returns exactly the user's non-folders; folders mode exactly the user's
folders.  Every mode succeeds (an empty match is an empty list, not an
error) and the result is sorted by `type` descending then `created_at`
descending. -/
theorem get_files_spec (users : List UserRow) (s : Store) (uid : Nat)
    (hnb : check_is_blocked false users uid = false) :
    (∀ n, ∃ l, get_files users s uid (FolderParam.real n) ("strict") = .ok l ∧
      l.Perm (s.filter (fun i => i.user_id == uid && i.parent_id == some n)) ∧
      l.Pairwise (fun a b => listingLE a b = true)) ∧
    (∀ fp, fp = FolderParam.absent ∨ fp = FolderParam.nullLit ∨ fp = FolderParam.rootLit →
      ∃ l, get_files users s uid fp ("strict") = .ok l ∧
        l.Perm (s.filter (fun i => i.user_id == uid && i.parent_id == none)) ∧
        l.Pairwise (fun a b => listingLE a b = true)) ∧
    (∀ fp, ∃ l, get_files users s uid fp ("global") = .ok l ∧
      l.Perm (s.filter (fun i => i.user_id == uid && !(i.type == ItemType.folder))) ∧
      l.Pairwise (fun a b => listingLE a b = true)) ∧
    (∀ fp, ∃ l, get_files users s uid fp ("folders") = .ok l ∧
      l.Perm (s.filter (fun i => i.user_id == uid && i.type == ItemType.folder)) ∧
      l.Pairwise (fun a b => listingLE a b = true)) := by
  refine ⟨?_, ?_, ?_, ?_⟩
  · intro n
    have heq : get_files users s uid (FolderParam.real n) ("strict") =
        .ok (((s.filter (fun i => i.user_id == uid)).filter
          (fun i => i.parent_id == some n)).mergeSort listingLE) := by
      unfold get_files
      rw [hnb]
      rfl
    exact ⟨_, heq, listing_perm _ _ _, sorted_listing _⟩
  · have root : ∀ fp, fp = FolderParam.absent ∨ fp = FolderParam.nullLit ∨
        fp = FolderParam.rootLit →
        get_files users s uid fp ("strict") =
          .ok (((s.filter (fun i => i.user_id == uid)).filter
            (fun i => i.parent_id == none)).mergeSort listingLE) := by
      rintro fp (rfl | rfl | rfl) <;> (unfold get_files; rw [hnb]) <;> rfl
    intro fp hfp
    exact ⟨_, root fp hfp, listing_perm _ _ _, sorted_listing _⟩
  · intro fp
    have heq : get_files users s uid fp ("global") =
        .ok (((s.filter (fun i => i.user_id == uid)).filter
          (fun i => !(i.type == ItemType.folder))).mergeSort listingLE) := by
      unfold get_files
      rw [hnb]
      rfl
    exact ⟨_, heq, listing_perm _ _ _, sorted_listing _⟩
  · intro fp
    have heq : get_files users s uid fp ("folders") =
        .ok (((s.filter (fun i => i.user_id == uid)).filter
          (fun i => i.type == ItemType.folder)).mergeSort listingLE) := by
      unfold get_files
      rw [hnb]
      rfl
    exact ⟨_, heq, listing_perm _ _ _, sorted_listing _⟩

/-- Witness for `get_files_spec`: for an unknown user (block check falls
through) every mode lists and sorts the demo store. -/
theorem get_files_spec_witness :
    check_is_blocked false [] 7 = false ∧
    ∃ l, get_files [] moveBugStore 7 (FolderParam.real 1) ("strict") = .ok l ∧
      l.Perm (moveBugStore.filter (fun i => i.user_id == 7 && i.parent_id == some 1)) ∧
      l.Pairwise (fun a b => listingLE a b = true) :=
  ⟨by decide, (get_files_spec [] moveBugStore 7 (by decide)).1 1⟩

theorem foldl_add_getD (l : List Item) (n : Nat) :
    l.foldl (fun acc i => acc + i.size.getD 0) n =
      n + (l.map (fun i => i.size.getD 0)).sum := by
  induction l generalizing n with
  | nil => simp
  | cons i t ih => simp [ih, List.sum_cons]; omega

/-- C7 — the Profile endpoint: `total_files` counts the user's non-folders,
`total_size_mb` is the owned byte total (folders contributing 0) divided by
1048576 and rounded to two decimals, and the per-category counts follow the
lowercased-suffix classification plus the folder count. -/
theorem get_profile_stats_spec (users : List UserRow) (s : Store) (uid : Nat)
    (hnb : check_is_blocked false users uid = false)
    (hfz : ∀ i ∈ s, i.user_id = uid → i.type = ItemType.folder → i.size.getD 0 = 0) :
    get_profile_stats users s uid = .ok
      { total_files := ((s.filter (fun i => i.user_id == uid)).filter
          (fun i => !(i.type == ItemType.folder))).length
        total_size_mb := roundTo2 ((specOwnedSize s uid : ℚ) / 1048576)
        photos := ((s.filter (fun i => i.user_id == uid)).filter
          (fun i => !(i.type == ItemType.folder) && isPhotoName (lowerStr i.name))).length
        videos := ((s.filter (fun i => i.user_id == uid)).filter
          (fun i => !(i.type == ItemType.folder) && !(isPhotoName (lowerStr i.name)) &&
            isVideoName (lowerStr i.name))).length
        docs := ((s.filter (fun i => i.user_id == uid)).filter
          (fun i => !(i.type == ItemType.folder) && !(isPhotoName (lowerStr i.name)) &&
            !(isVideoName (lowerStr i.name)))).length
        folders := ((s.filter (fun i => i.user_id == uid)).filter
          (fun i => i.type == ItemType.folder)).length } := by
  have hsize : ((s.filter (fun i => i.user_id == uid)).map
      (fun i => i.size.getD 0)).sum = specOwnedSize s uid := by
    unfold specOwnedSize
    refine congrArg List.sum (List.map_congr_left ?_)
    intro i hi
    obtain ⟨his, hiu⟩ := List.mem_filter.mp hi
    by_cases hty : i.type == ItemType.folder
    · rw [if_pos hty, hfz i his (by simpa using hiu) (by simpa using hty)]
    · rw [if_neg hty]
  simp only [get_profile_stats, hnb, Bool.false_eq_true, if_false,
    foldl_add_getD, Nat.zero_add, hsize, List.countP_eq_length_filter]
  norm_num

/-- Witness for `get_profile_stats_spec`: the claim's own example — one
owned file of 2097152 bytes named "a.png" reports one file, 2.00 MB, one
photo. -/
theorem get_profile_stats_spec_witness :
    (check_is_blocked false [⟨1, ("u"), false⟩]
        1 = false ∧
      ∀ i ∈ ([⟨10, 1, ("a.png"), ItemType.file, some ("h"), some 2097152, none, 0⟩] : Store),
        i.user_id = 1 → i.type = ItemType.folder → i.size.getD 0 = 0) ∧
    get_profile_stats [⟨1, ("u"), false⟩]
      [⟨10, 1, ("a.png"), ItemType.file, some ("h"), some 2097152, none, 0⟩] 1 =
      .ok { total_files := 1, total_size_mb := 2, photos := 1, videos := 0,
            docs := 0, folders := 0 } := by
  refine ⟨⟨by decide, by decide⟩, ?_⟩
  rw [get_profile_stats_spec _ _ _ (by decide) (by decide)]
  have hsz : specOwnedSize
      [⟨10, 1, ("a.png"), ItemType.file, some ("h"), some 2097152, none, 0⟩] 1 = 2097152 := by
    decide
  rw [hsz]
  simp only [Except.ok.injEq, ProfileStats.mk.injEq]
  refine ⟨by decide, ?_, by decide, by decide, by decide, by decide⟩
  norm_num [roundTo2, round_eq]

theorem check_is_blocked_of_blocked {users : List UserRow} {uid : Nat} {u : UserRow}
    (hu : findUser users uid = some u) (hb : u.is_blocked = true)
    (hadm : u.username ≠ ADMIN_USERNAME) :
    check_is_blocked false users uid = true := by
  simp [check_is_blocked, hu, hadm, hb]

theorem check_is_blocked_of_admin {users : List UserRow} {uid : Nat} {u : UserRow}
    (hu : findUser users uid = some u) (hadm : u.username = ADMIN_USERNAME) :
    check_is_blocked false users uid = false := by
  simp [check_is_blocked, hu, hadm]

/-- C5, counterexample — the claim says *every* catalog entry point
(including rename, delete, delete_folder_recursive, move_file) checks the
block flag first and rejects a blocked non-admin caller with Forbidden.
With user 7 blocked (and not the admin), rename, move, delete and
recursive delete all succeed: these endpoints never consult the `users`
table at all (they do not even receive a caller identity). -/
theorem blocked_user_mutation_succeeds :
    check_is_blocked false demoUsers 7 = true ∧
    (rename_item moveBugStore 1 ("x")).2 = ("ok") ∧
    (move_file moveBugStore 1 none).2 = ("ok") ∧
    (delete_item moveBugStore 1).2 = ("deleted") ∧
    (delete_folder_recursive_api moveBugStore 1).2 = ("deleted_recursive") := by
  refine ⟨by decide, rfl, rfl, rfl, rfl⟩

/-- C5, amended — the list, profile, create_folder, delete_all and
non-redirected download entry points check the block flag first and reject
a blocked non-admin caller with Forbidden; rename, delete,
delete_folder_recursive and move_file perform no block check and succeed
regardless; and any caller whose stored username equals the configured
administrator username passes the block check (and those gated endpoints)
even when flagged blocked. -/
theorem blocked_gating_spec (users : List UserRow) (s : Store) (next uid : Nat)
    (fp : FolderParam) (mode nm : String) (pp : ParentParam) (item_id : Nat)
    (folder_id : Option Nat) (u : UserRow)
    (hu : findUser users uid = some u) (hb : u.is_blocked = true)
    (hadm : u.username ≠ ADMIN_USERNAME) :
    get_files users s uid fp mode = .error .forbidden ∧
    get_profile_stats users s uid = .error .forbidden ∧
    delete_all_data users s uid = .error .forbidden ∧
    create_folder users s next uid nm pp = .error .forbidden ∧
    download_file users uid none = .error .forbidden ∧
    (rename_item s item_id nm).2 = ("ok") ∧
    (move_file s item_id folder_id).2 = ("ok") ∧
    (delete_item s item_id).2 = ("deleted") ∧
    (delete_folder_recursive_api s item_id).2 = ("deleted_recursive") ∧
    (∀ uid2 ua, findUser users uid2 = some ua → ua.username = ADMIN_USERNAME →
      check_is_blocked false users uid2 = false ∧
      (∃ l, get_files users s uid2 fp mode = .ok l) ∧
      (∃ p, get_profile_stats users s uid2 = .ok p) ∧
      (∃ r, delete_all_data users s uid2 = .ok r) ∧
      (∃ r, create_folder users s next uid2 nm pp = .ok r) ∧
      download_file users uid2 none = .ok ("ok")) := by
  have hblk := check_is_blocked_of_blocked hu hb hadm
  refine ⟨?_, ?_, ?_, ?_, ?_, rfl, rfl, rfl, rfl, ?_⟩
  · unfold get_files
    rw [hblk]
    rfl
  · unfold get_profile_stats
    rw [hblk]
    rfl
  · unfold delete_all_data
    rw [hblk]
    rfl
  · unfold create_folder
    rw [hblk]
    rfl
  · unfold download_file
    simp only [beq_self_eq_true, if_true, hblk]
  · intro uid2 ua hua hua_adm
    have hok := check_is_blocked_of_admin hua hua_adm
    refine ⟨hok, ?_, ?_, ?_, ?_, ?_⟩
    · unfold get_files
      rw [hok]
      exact ⟨_, rfl⟩
    · unfold get_profile_stats
      rw [hok]
      exact ⟨_, rfl⟩
    · unfold delete_all_data
      rw [hok]
      exact ⟨_, rfl⟩
    · unfold create_folder
      rw [hok]
      exact ⟨_, rfl⟩
    · unfold download_file
      simp only [beq_self_eq_true, if_true, hok]
      rfl

/-- Witness for `blocked_gating_spec` at the demo tables: blocked user 7 is
rejected by List, while the blocked admin (user 9) passes the check. -/
theorem blocked_gating_spec_witness :
    (findUser demoUsers 7 = some ⟨7, ("eve"), true⟩ ∧
      (⟨7, ("eve"), true⟩ : UserRow).is_blocked = true ∧
      (⟨7, ("eve"), true⟩ : UserRow).username ≠ ADMIN_USERNAME) ∧
    get_files demoUsers moveBugStore 7 FolderParam.absent ("strict") = .error .forbidden ∧
    check_is_blocked false demoUsers 9 = false := by
  have h := blocked_gating_spec demoUsers moveBugStore 0 7 FolderParam.absent
    ("strict") ("x") ParentParam.absent 1 none ⟨7, ("eve"), true⟩
    (by decide) rfl (by decide)
  exact ⟨⟨by decide, rfl, by decide⟩, h.1,
    (h.2.2.2.2.2.2.2.2.2 9 ⟨9, ADMIN_USERNAME, true⟩ (by decide) rfl).1⟩

/-- C8, counterexample — the claim says every inbound document, photo,
video *or audio* notification from a non-blocked user results in an
inserted file item.  An audio-only message from a non-blocked user (no
`users` row, so the block check falls through) leaves the items table
untouched: the handler has no audio branch, `file_id` stays `None`, and
nothing is inserted. -/
theorem handle_files_audio_no_insert :
    check_is_blocked false [] audioOnlyMsg.from_user = false ∧
    audioOnlyMsg.audio.isSome = true ∧
    handle_files [] [] 0 audioOnlyMsg = ([], [], 0) := by
  exact ⟨rfl, rfl, rfl⟩

/-- C8, amended — for a non-blocked sender the ingestion handler inserts a
new `file` item at the root (`parent_id = null`) owned by the sender for
document, photo and video notifications, choosing the attachment with
priority document over photo over video (the document branch wins whatever
else is attached); an audio-only notification inserts nothing; and the
handler never writes the `users` table (the upsert lives in the `/start`
handler instead). -/
theorem handle_files_spec (users : List UserRow) (s : Store) (next : Nat)
    (msg : TgMessage) (hnb : check_is_blocked false users msg.from_user = false) :
    (handle_files users s next msg).1 = users ∧
    (∀ d, msg.document = some d →
      handle_files users s next msg =
        (users, s ++ [⟨next, msg.from_user, pyOr d.file_name ("doc"), ItemType.file,
          some d.file_id, d.file_size, none, next⟩], next + 1)) ∧
    (∀ ps p, msg.document = none → msg.photo = some ps → ps.getLast? = some p →
      handle_files users s next msg =
        (users, s ++ [⟨next, msg.from_user, ("img_") ++ msg.date ++ (".jpg"), ItemType.file,
          some p.file_id, p.file_size, none, next⟩], next + 1)) ∧
    (∀ v, msg.document = none → msg.photo = none → msg.video = some v →
      handle_files users s next msg =
        (users, s ++ [⟨next, msg.from_user, pyOr v.file_name ("video.mp4"), ItemType.file,
          some v.file_id, v.file_size, none, next⟩], next + 1)) ∧
    (msg.document = none → msg.photo = none → msg.video = none →
      handle_files users s next msg = (users, s, next)) := by
  refine ⟨?_, ?_, ?_, ?_, ?_⟩
  · rcases hd : msg.document with - | d
    · rcases hph : msg.photo with - | ps
      · rcases hv : msg.video with - | v
        · simp [handle_files, hnb, hd, hph, hv]
        · simp [handle_files, hnb, hd, hph, hv, insertItem]
      · rcases hgl : ps.getLast? with - | p
        · simp [handle_files, hnb, hd, hph, hgl]
        · simp [handle_files, hnb, hd, hph, hgl, insertItem]
    · simp [handle_files, hnb, hd, insertItem]
  · intro d hd
    simp only [handle_files, hnb, Bool.false_eq_true, if_false, hd]
    rfl
  · intro ps p hd hph hlast
    simp only [handle_files, hnb, Bool.false_eq_true, if_false, hd, hph, hlast]
    rfl
  · intro v hd hph hv
    simp only [handle_files, hnb, Bool.false_eq_true, if_false, hd, hph, hv]
    rfl
  · intro hd hph hv
    simp only [handle_files, hnb, Bool.false_eq_true, if_false, hd, hph, hv]

/-- Witness for `handle_files_spec`: a document message from a non-blocked
sender is stored at the root for that sender. -/
theorem handle_files_spec_witness :
    check_is_blocked false []
      (TgMessage.mk 7 ("d") (some ⟨("fid1"), some ("r.txt"), some 9⟩) none none none).from_user
      = false ∧
    handle_files [] [] 3
      (TgMessage.mk 7 ("d") (some ⟨("fid1"), some ("r.txt"), some 9⟩) none none none) =
      ([], [⟨3, 7, ("r.txt"), ItemType.file, some ("fid1"), some 9, none, 3⟩], 4) := by
  refine ⟨rfl, ?_⟩
  have h := (handle_files_spec [] [] 3
    (TgMessage.mk 7 ("d") (some ⟨("fid1"), some ("r.txt"), some 9⟩) none none none)
    rfl).2.1 ⟨("fid1"), some ("r.txt"), some 9⟩ rfl
  rw [h]
  rfl

theorem childStep_mono {s s' : Store} (h : List.Sublist s' s) {p c : Nat}
    (hc : childStep s' p c) : childStep s p c := by
  obtain ⟨i, hi, h1, h2⟩ := hc
  exact ⟨i, h.subset hi, h1, h2⟩

theorem desc_mono {s s' : Store} (h : List.Sublist s' s) {a d : Nat} (hd : desc s' a d) :
    desc s a d :=
  Relation.TransGen.mono (fun _ _ => childStep_mono h) hd

theorem descOrSelf_mono {s s' : Store} (h : List.Sublist s' s) {a d : Nat}
    (hd : descOrSelf s' a d) : descOrSelf s a d :=
  hd.imp id (desc_mono h)

theorem row_unique {s : Store} (hnd : (s.map Item.id).Nodup) {i j : Item}
    (hi : i ∈ s) (hj : j ∈ s) (hij : i.id = j.id) : i = j :=
  List.inj_on_of_nodup_map hnd hi hj hij

theorem parent_unique {s : Store} (hnd : (s.map Item.id).Nodup) {p q c : Nat}
    (h : childStep s p c) (h' : childStep s q c) : p = q := by
  obtain ⟨i, hi, hic, hip⟩ := h
  obtain ⟨j, hj, hjc, hjp⟩ := h'
  have hij : i = j := row_unique hnd hi hj (by rw [hic, hjc])
  rw [hij, hjp] at hip
  exact (Option.some.injEq _ _ ▸ hip.symm :)

theorem descOrSelf_child {s : Store} {a p c : Nat} (h : descOrSelf s a p)
    (hc : childStep s p c) : desc s a c := by
  rcases h with rfl | h
  · exact Relation.TransGen.single hc
  · exact Relation.TransGen.tail h hc

theorem chain_members {s : Store} {a : Nat} {l : List Nat} (hc : ChainL s a l) :
    ∀ x ∈ l, desc s a x := by
  induction hc with
  | nil => intro x hx; cases hx
  | cons h _ ih =>
    intro x hx
    rcases List.mem_cons.mp hx with rfl | hx
    · exact Relation.TransGen.single h
    · exact Relation.TransGen.head h (ih x hx)

theorem chain_snoc {s : Store} : ∀ {l : List Nat} {a b c : Nat},
    ChainL s a l → l.getLast? = some b → childStep s b c → ChainL s a (l ++ [c]) := by
  intro l
  induction l with
  | nil => intro a b c _ hlast; cases hlast
  | cons x t ih =>
    intro a b c hc hlast hstep
    cases hc with
    | cons hx hct =>
      cases t with
      | nil =>
        have hbx : x = b := by simpa using hlast
        subst hbx
        exact .cons hx (.cons hstep .nil)
      | cons y u =>
        have hlast' : (y :: u).getLast? = some b := by
          rw [List.getLast?_cons_cons] at hlast
          exact hlast
        exact .cons hx (ih hct hlast' hstep)

theorem desc_to_chain {s : Store} {a d : Nat} (h : desc s a d) :
    ∃ l, ChainL s a l ∧ l.getLast? = some d := by
  induction h with
  | single h => exact ⟨[_], .cons h .nil, rfl⟩
  | tail _ hstep ih =>
    obtain ⟨l, hc, hlast⟩ := ih
    exact ⟨l ++ [_], chain_snoc hc hlast hstep, List.getLast?_concat _⟩

theorem chain_nodup {s : Store} (hacy : Acyclic s) {a : Nat} {l : List Nat}
    (hc : ChainL s a l) : l.Nodup := by
  induction hc with
  | nil => exact List.nodup_nil
  | cons h hct ih =>
    refine List.nodup_cons.mpr ⟨?_, ih⟩
    intro hmem
    exact hacy _ (chain_members hct _ hmem)

theorem chain_ids {s : Store} {a : Nat} {l : List Nat} (hc : ChainL s a l) :
    ∀ x ∈ l, ∃ i ∈ s, i.id = x := by
  induction hc with
  | nil => intro x hx; cases hx
  | cons h _ ih =>
    intro x hx
    rcases List.mem_cons.mp hx with rfl | hx
    · obtain ⟨i, hi, hic, -⟩ := h
      exact ⟨i, hi, hic⟩
    · exact ih x hx

theorem chain_length_le {s : Store}
    (hacy : Acyclic s) {a : Nat} {l : List Nat} (hc : ChainL s a l) :
    l.length ≤ s.length := by
  have hsub : l.toFinset ⊆ (s.map Item.id).toFinset := by
    intro x hx
    obtain ⟨i, hi, hix⟩ := chain_ids hc x (List.mem_toFinset.mp hx)
    exact List.mem_toFinset.mpr (hix ▸ List.mem_map_of_mem _ hi)
  calc l.length = l.toFinset.card := (List.toFinset_card_of_nodup (chain_nodup hacy hc)).symm
    _ ≤ (s.map Item.id).toFinset.card := Finset.card_le_card hsub
    _ ≤ (s.map Item.id).length := List.toFinset_card_le _
    _ = s.length := List.length_map _ _

theorem chainBound_init {s : Store}
    (hacy : Acyclic s) (F : Nat) : chainBound s F (s.length + 1) := by
  intro l hl
  exact Nat.lt_succ_of_le (chain_length_le hacy hl)

theorem chain_mono {s s' : Store} (h : List.Sublist s' s) {a : Nat} {l : List Nat}
    (hc : ChainL s' a l) : ChainL s a l := by
  induction hc with
  | nil => exact .nil
  | cons hstep _ ih => exact .cons (childStep_mono h hstep) ih

theorem chain_transport {s acc : Store} {a : Nat} {l : List Nat}
    (hc : ChainL s a l)
    (hmem : ∀ x ∈ l, ∀ row ∈ s, row.id = x → row ∈ acc) : ChainL acc a l := by
  induction hc with
  | nil => exact .nil
  | cons hstep hct ih =>
    obtain ⟨row, hrow, hrid, hrp⟩ := hstep
    refine .cons ⟨row, hmem _ (List.mem_cons_self _ _) row hrow hrid, hrid, hrp⟩ ?_
    exact ih (fun x hx => hmem x (List.mem_cons_of_mem _ hx))

theorem cycle_parent {s : Store} {z : Nat} (hz : desc s z z) :
    ∃ r ∈ s, r.id = z ∧ ∃ y, r.parent_id = some y ∧ desc s y y := by
  cases hz with
  | single h =>
    obtain ⟨r, hr, hrid, hrp⟩ := h
    exact ⟨r, hr, hrid, z, hrp, Relation.TransGen.single ⟨r, hr, hrid, hrp⟩⟩
  | tail hzy h =>
    obtain ⟨r, hr, hrid, hrp⟩ := h
    exact ⟨r, hr, hrid, _, hrp, Relation.TransGen.head ⟨r, hr, hrid, hrp⟩ hzy⟩

theorem cycle_chain_false {s : Store} (hnd : (s.map Item.id).Nodup) :
    ∀ fuel (z : Nat), desc s z z → chainToRoot fuel s (some z) = false := by
  intro fuel
  induction fuel with
  | zero => intro z _; rfl
  | succ fuel ih =>
    intro z hz
    obtain ⟨r, hr, hrid, y, hrp, hy⟩ := cycle_parent hz
    rcases hf : s.find? (fun i => i.id == z) with - | r'
    · exact absurd (by simpa using List.find?_eq_none.mp hf r hr) (by simp [hrid])
    · have hr'mem := List.mem_of_find?_eq_some hf
      have hr'id : r'.id = z := by simpa using List.find?_some hf
      have hrr : r' = r := row_unique hnd hr'mem hr (hr'id.trans hrid.symm)
      show chainToRoot (fuel + 1) s (some z) = false
      unfold chainToRoot
      rw [hf, hrr]
      show chainToRoot fuel s r.parent_id = false
      rw [hrp]
      exact ih y hy

theorem acyclic_of_rootedB {s : Store} (hnd : (s.map Item.id).Nodup)
    (hrt : rootedB s = true) : Acyclic s := by
  intro a ha
  obtain ⟨r, hr, -, y, hrp, hy⟩ := cycle_parent ha
  have h1 : chainToRoot s.length s r.parent_id = true := by
    simpa using List.all_eq_true.mp hrt r hr
  rw [hrp, cycle_chain_false hnd s.length y hy] at h1
  cases h1

theorem parentsValidP_of_B {s : Store} (h : parentsValidB s = true) :
    ParentsValidP s := by
  intro i hi p hp
  have hall := List.all_eq_true.mp h i hi
  rw [hp] at hall
  obtain ⟨f, hf, hfp⟩ := List.any_eq_true.mp hall
  have hfp' : f.id = p ∧ f.type = ItemType.folder := by simpa using hfp
  exact ⟨f, hf, hfp'.1, hfp'.2⟩

theorem desc_comparable {s : Store} (hnd : (s.map Item.id).Nodup) {a x : Nat}
    (hax : desc s a x) : ∀ b, desc s b x → a = b ∨ desc s a b ∨ desc s b a := by
  induction hax with
  | single h =>
    intro b hbx
    cases hbx with
    | single h' => exact Or.inl (parent_unique hnd h h')
    | tail hby h' =>
      have he := parent_unique hnd h' h
      exact Or.inr (Or.inr (he ▸ hby))
  | tail hay h' ih =>
    intro b hbx
    cases hbx with
    | single h'' =>
      have he : b = _ := parent_unique hnd h'' h'
      exact Or.inr (Or.inl (he ▸ hay))
    | tail hby h'' =>
      have he := parent_unique hnd h'' h'
      exact ih b (he ▸ hby)

theorem desc_sibling_contra {s : Store} (hnd : (s.map Item.id).Nodup)
    (hacy : Acyclic s) {F a b : Nat} (ha : childStep s F a) (hb : childStep s F b)
    (hba : desc s b a) : False := by
  cases hba with
  | single h =>
    have he : b = F := parent_unique hnd h ha
    rw [he] at hb
    exact hacy F (Relation.TransGen.single hb)
  | tail h1 h2 =>
    have he := parent_unique hnd h2 ha
    rw [he] at h1
    exact hacy F (Relation.TransGen.head hb h1)

theorem sibling_subtrees_disjoint {s : Store} (hnd : (s.map Item.id).Nodup)
    (hacy : Acyclic s) {F a b x : Nat} (hab : a ≠ b)
    (ha : childStep s F a) (hb : childStep s F b)
    (hax : descOrSelf s a x) (hbx : descOrSelf s b x) : False := by
  rcases hax with rfl | hax
  · rcases hbx with h | hbx
    · exact hab h
    · exact desc_sibling_contra hnd hacy ha hb hbx
  · rcases hbx with rfl | hbx
    · exact desc_sibling_contra hnd hacy hb ha hax
    · rcases desc_comparable hnd hax _ hbx with rfl | hd | hd
      · exact hab rfl
      · exact desc_sibling_contra hnd hacy hb ha hd
      · exact desc_sibling_contra hnd hacy ha hb hd

theorem mem_of_getLast_opt : ∀ {l : List Nat} {a : Nat}, l.getLast? = some a → a ∈ l := by
  intro l
  induction l with
  | nil => intro a h; cases h
  | cons x t ih =>
    intro a h
    cases t with
    | nil =>
      have : x = a := by simpa using h
      exact this ▸ List.mem_cons_self _ _
    | cons y u =>
      rw [List.getLast?_cons_cons] at h
      exact List.mem_cons_of_mem _ (ih h)

theorem desc_first_step {s : Store} {F x : Nat} (h : desc s F x) :
    ∃ b, childStep s F b ∧ (b = x ∨ desc s b x) := by
  induction h with
  | single h => exact ⟨_, h, Or.inl rfl⟩
  | tail h1 h2 ih =>
    obtain ⟨b, hb, hbc⟩ := ih
    rcases hbc with rfl | hbc
    · exact ⟨b, hb, Or.inr (Relation.TransGen.single h2)⟩
    · exact ⟨b, hb, Or.inr (Relation.TransGen.tail hbc h2)⟩

theorem recursive_del_sublist : ∀ (fuel : Nat) (s : Store) (F : Nat),
    List.Sublist (recursive_del fuel s F) s := by
  intro fuel
  induction fuel with
  | zero => intro s F; exact List.Sublist.refl s
  | succ fuel ih =>
    intro s F
    have hfold : ∀ (cs : List Item) (acc : Store),
        List.Sublist (cs.foldl (fun acc child =>
          if child.type == ItemType.folder then recursive_del fuel acc child.id
          else acc.filter (fun i => !(i.id == child.id))) acc) acc := by
      intro cs
      induction cs with
      | nil => intro acc; exact List.Sublist.refl acc
      | cons c t iht =>
        intro acc
        rw [List.foldl_cons]
        refine List.Sublist.trans (iht _) ?_
        by_cases hc : c.type == ItemType.folder
        · rw [if_pos hc]
          exact ih acc c.id
        · rw [if_neg hc]
          exact List.filter_sublist _
    exact (List.filter_sublist _).trans (hfold _ s)

theorem recursive_del_chars : ∀ (fuel : Nat) (s : Store) (F : Nat),
    (s.map Item.id).Nodup → ParentsValidP s → Acyclic s → chainBound s F fuel →
    ∀ i, i ∈ recursive_del fuel s F ↔ (i ∈ s ∧ ¬ descOrSelf s F i.id) := by
  intro fuel
  induction fuel with
  | zero =>
    intro s F _ _ _ hcb i
    exact absurd (hcb [] .nil) (by simp)
  | succ fuel ih =>
    intro s F hnd hpv hacy hcb i
    have hfold : ∀ (cs : List Item) (acc : Store) (K : Item → Prop),
        (∀ c ∈ cs, c ∈ s ∧ c.parent_id = some F) →
        (cs.map Item.id).Nodup →
        List.Sublist acc s →
        (∀ p c : Item, p ∈ s → c ∈ s → c.parent_id = some p.id → ¬ K p → ¬ K c) →
        (∀ j, j ∈ acc ↔ (j ∈ s ∧ K j)) →
        (∀ j ∈ s, ∀ c ∈ cs, descOrSelf s c.id j.id → K j) →
        ∀ j, j ∈ cs.foldl (fun acc child =>
            if child.type == ItemType.folder then recursive_del fuel acc child.id
            else acc.filter (fun i => !(i.id == child.id))) acc ↔
          (j ∈ s ∧ K j ∧ ∀ c ∈ cs, ¬ descOrSelf s c.id j.id) := by
      intro cs
      induction cs with
      | nil =>
        intro acc K _ _ _ _ hacc _ j
        simpa using hacc j
      | cons c t iht =>
        intro acc K hcs hcsnd hsub hKdc hacc hintact j
        have hcmem : c ∈ s := (hcs c (List.mem_cons_self _ _)).1
        have hcpar : c.parent_id = some F := (hcs c (List.mem_cons_self _ _)).2
        have hcF : childStep s F c.id := ⟨c, hcmem, rfl, hcpar⟩
        -- membership characterization of the store after processing `c`
        have hstep : ∀ j, j ∈ (if c.type == ItemType.folder
              then recursive_del fuel acc c.id
              else acc.filter (fun i => !(i.id == c.id))) ↔
            (j ∈ s ∧ K j ∧ ¬ descOrSelf s c.id j.id) := by
          by_cases hty : c.type == ItemType.folder
          · rw [if_pos hty]
            have hnd_acc : (acc.map Item.id).Nodup :=
              List.Nodup.sublist (hsub.map Item.id) hnd
            have hpv_acc : ParentsValidP acc := by
              intro j hj p hp
              obtain ⟨hjs, hKj⟩ := (hacc j).mp hj
              obtain ⟨f, hf, hfid, hft⟩ := hpv j hjs p hp
              have hKf : K f := by
                by_contra hKf
                exact hKdc f j hf hjs (by rw [hp, hfid]) hKf hKj
              exact ⟨f, (hacc f).mpr ⟨hf, hKf⟩, hfid, hft⟩
            have hacy_acc : Acyclic acc := fun a ha => hacy a (desc_mono hsub ha)
            have hcb_acc : chainBound acc c.id fuel := by
              intro l hl
              have h1 : ChainL s F (c.id :: l) := .cons hcF (chain_mono hsub hl)
              have h2 := hcb _ h1
              simp only [List.length_cons, Nat.succ_lt_succ_iff] at h2
              exact h2
            intro j
            rw [ih acc c.id hnd_acc hpv_acc hacy_acc hcb_acc j]
            constructor
            · rintro ⟨hja, hjd⟩
              obtain ⟨hjs, hKj⟩ := (hacc j).mp hja
              refine ⟨hjs, hKj, ?_⟩
              rintro (hid | hdesc)
              · exact hjd (Or.inl hid)
              · obtain ⟨l, hl, hlast⟩ := desc_to_chain hdesc
                have hrows : ∀ x ∈ l, ∀ row ∈ s, row.id = x → row ∈ acc := by
                  intro x hx row hrow hrid
                  have hdx : desc s c.id x := chain_members hl x hx
                  have hKrow : K row :=
                    hintact row hrow c (List.mem_cons_self _ _) (Or.inr (hrid ▸ hdx))
                  exact (hacc row).mpr ⟨hrow, hKrow⟩
                have hla : ChainL acc c.id l := chain_transport hl hrows
                have : desc acc c.id j.id :=
                  chain_members hla _ (mem_of_getLast_opt hlast)
                exact hjd (Or.inr this)
            · rintro ⟨hjs, hKj, hjd⟩
              refine ⟨(hacc j).mpr ⟨hjs, hKj⟩, ?_⟩
              intro hda
              exact hjd (descOrSelf_mono hsub hda)
          · rw [if_neg hty]
            have hcfile : c.type ≠ ItemType.folder := by simpa using hty
            have hnochild : ∀ x, ¬ desc s c.id x := by
              intro x hx
              obtain ⟨b, hb, -⟩ := desc_first_step hx
              obtain ⟨row, hrow, hrowid, hrowp⟩ := hb
              obtain ⟨f, hf, hfid, hft⟩ := hpv row hrow c.id hrowp
              have : f = c := row_unique hnd hf hcmem hfid
              exact hcfile (this ▸ hft)
            intro j
            rw [List.mem_filter]
            constructor
            · rintro ⟨hja, hjne⟩
              obtain ⟨hjs, hKj⟩ := (hacc j).mp hja
              refine ⟨hjs, hKj, ?_⟩
              rintro (hid | hdesc)
              · simp [hid] at hjne
              · exact hnochild _ hdesc
            · rintro ⟨hjs, hKj, hjd⟩
              refine ⟨(hacc j).mpr ⟨hjs, hKj⟩, ?_⟩
              simp only [Bool.not_eq_eq_eq_not, Bool.not_true, beq_eq_false_iff_ne]
              intro hid
              exact hjd (Or.inl hid)
        -- invariants for the remaining children
        have hcsnd' : (t.map Item.id).Nodup := by
          rw [List.map_cons] at hcsnd
          exact hcsnd.of_cons
        have hcid_not : c.id ∉ t.map Item.id := by
          rw [List.map_cons] at hcsnd
          exact (List.nodup_cons.mp hcsnd).1
        have hsub' : List.Sublist (if c.type == ItemType.folder
            then recursive_del fuel acc c.id
            else acc.filter (fun i => !(i.id == c.id))) s := by
          by_cases hty : c.type == ItemType.folder
          · rw [if_pos hty]
            exact (recursive_del_sublist fuel acc c.id).trans hsub
          · rw [if_neg hty]
            exact (List.filter_sublist _).trans hsub
        have hKdc' : ∀ p ch : Item, p ∈ s → ch ∈ s → ch.parent_id = some p.id →
            ¬ (K p ∧ ¬ descOrSelf s c.id p.id) → ¬ (K ch ∧ ¬ descOrSelf s c.id ch.id) := by
          intro p ch hp hch hpar hnp
          by_cases hKp : K p
          · have hdp : descOrSelf s c.id p.id := by
              by_contra hdp
              exact hnp ⟨hKp, hdp⟩
            intro hK'
            exact hK'.2 (Or.inr (descOrSelf_child hdp ⟨ch, hch, rfl, hpar⟩))
          · intro hK'
            exact hKdc p ch hp hch hpar hKp hK'.1
        have hintact' : ∀ j ∈ s, ∀ c'' ∈ t, descOrSelf s c''.id j.id →
            (K j ∧ ¬ descOrSelf s c.id j.id) := by
          intro j hjs c'' hc'' hdj
          refine ⟨hintact j hjs c'' (List.mem_cons_of_mem _ hc'') hdj, ?_⟩
          intro hdc
          have hne : c.id ≠ c''.id := by
            intro he
            exact hcid_not (he ▸ List.mem_map_of_mem Item.id hc'')
          have hc''F : childStep s F c''.id :=
            ⟨c'', (hcs c'' (List.mem_cons_of_mem _ hc'')).1, rfl,
              (hcs c'' (List.mem_cons_of_mem _ hc'')).2⟩
          exact sibling_subtrees_disjoint hnd hacy hne hcF hc''F hdc hdj
        rw [List.foldl_cons]
        rw [iht _ (fun jj => K jj ∧ ¬ descOrSelf s c.id jj.id)
          (fun c'' hc'' => hcs c'' (List.mem_cons_of_mem _ hc'')) hcsnd' hsub'
          hKdc' hstep hintact' j]
        constructor
        · rintro ⟨hjs, ⟨hKj, hdc⟩, hrest⟩
          refine ⟨hjs, hKj, ?_⟩
          intro c'' hc''
          rcases List.mem_cons.mp hc'' with rfl | hc''
          · exact hdc
          · exact hrest c'' hc''
        · rintro ⟨hjs, hKj, hall⟩
          exact ⟨hjs, ⟨hKj, hall c (List.mem_cons_self _ _)⟩,
            fun c'' hc'' => hall c'' (List.mem_cons_of_mem _ hc'')⟩
    -- instantiate the fold characterization at the top level
    have hch := hfold (s.filter (fun i => i.parent_id == some F)) s (fun _ => True)
      (fun c hc => by
        have h1 := List.mem_filter.mp hc
        exact ⟨h1.1, by simpa using h1.2⟩)
      (List.Nodup.sublist ((List.filter_sublist _).map Item.id) hnd)
      (List.Sublist.refl s)
      (fun _ _ _ _ _ h _ => h trivial)
      (fun j => by simp)
      (fun _ _ _ _ _ => trivial)
    show i ∈ (List.filter _ _) ↔ _
    rw [List.mem_filter]
    rw [hch i]
    constructor
    · rintro ⟨⟨hjs, -, hall⟩, hne⟩
      refine ⟨hjs, ?_⟩
      rintro (hid | hdesc)
      · simp [hid] at hne
      · obtain ⟨b, hb, hbx⟩ := desc_first_step hdesc
        obtain ⟨row, hrow, hrowid, hrowp⟩ := hb
        have hrowc : row ∈ s.filter (fun i => i.parent_id == some F) :=
          List.mem_filter.mpr ⟨hrow, by simp [hrowp]⟩
        refine hall row hrowc ?_
        rcases hbx with rfl | hdb
        · exact Or.inl hrowid.symm
        · exact Or.inr (hrowid ▸ hdb)
    · rintro ⟨hjs, hnds⟩
      refine ⟨⟨hjs, trivial, ?_⟩, ?_⟩
      · intro c hc hdc
        have h1 := List.mem_filter.mp hc
        have hcF : childStep s F c.id := ⟨c, h1.1, rfl, by simpa using h1.2⟩
        rcases hdc with hid | hdc
        · exact hnds (Or.inr (hid ▸ Relation.TransGen.single hcF))
        · exact hnds (Or.inr (Relation.TransGen.head hcF hdc))
      · simp only [Bool.not_eq_eq_eq_not, Bool.not_true, beq_eq_false_iff_ne]
        intro hid
        exact hnds (Or.inl hid)

theorem get_files_subset {users : List UserRow} {s : Store} {uid : Nat}
    {fp : FolderParam} {mode : String} {l : List Item}
    (h : get_files users s uid fp mode = .ok l) : ∀ j ∈ l, j ∈ s := by
  unfold get_files at h
  by_cases hc : check_is_blocked false users uid
  · rw [if_pos hc] at h
    cases h
  · rw [if_neg hc] at h
    simp only [Except.ok.injEq] at h
    intro j hj
    rw [← h] at hj
    have hj1 := List.mem_mergeSort.mp hj
    by_cases hm1 : mode = ("global")
    · rw [if_pos hm1] at hj1
      exact (List.mem_filter.mp (List.mem_filter.mp hj1).1).1
    · rw [if_neg hm1] at hj1
      by_cases hm2 : mode = ("folders")
      · rw [if_pos hm2] at hj1
        exact (List.mem_filter.mp (List.mem_filter.mp hj1).1).1
      · rw [if_neg hm2] at hj1
        cases fp <;>
          exact (List.mem_filter.mp (List.mem_filter.mp hj1).1).1

/-- C3 — recursive delete: reports success; the surviving rows are exactly
the original rows that are neither `F` nor a transitive descendant of `F`
(so a folder with no children loses only itself); and afterwards no List
call in any mode can return `F` or any of its former descendants.  The
hypotheses are the data-model invariants: distinct ids, parent references
naming folder rows, and parent chains terminating (I1). -/
theorem delete_folder_recursive_spec (s : Store) (F : Nat)
    (hnd : (s.map Item.id).Nodup) (hpv : parentsValidB s = true)
    (hrt : rootedB s = true) :
    (delete_folder_recursive_api s F).2 = ("deleted_recursive") ∧
    (∀ i, i ∈ (delete_folder_recursive_api s F).1 ↔
      (i ∈ s ∧ ¬ descOrSelf s F i.id)) ∧
    (∀ users uid fp mode l,
      get_files users (delete_folder_recursive_api s F).1 uid fp mode = .ok l →
      ∀ j ∈ l, ¬ descOrSelf s F j.id) := by
  have hacy : Acyclic s := acyclic_of_rootedB hnd hrt
  have hchars := recursive_del_chars (s.length + 1) s F hnd
    (parentsValidP_of_B hpv) hacy (chainBound_init hacy F)
  refine ⟨rfl, hchars, ?_⟩
  intro users uid fp mode l hl j hj
  exact ((hchars j).mp (get_files_subset hl j hj)).2

/-- Witness for `delete_folder_recursive_spec` on `recDelStore`. -/
theorem delete_folder_recursive_spec_witness :
    ((recDelStore.map Item.id).Nodup ∧ parentsValidB recDelStore = true ∧
      rootedB recDelStore = true) ∧
    (delete_folder_recursive_api recDelStore 1).2 = ("deleted_recursive") := by
  exact ⟨⟨by decide, by decide, by decide⟩,
    (delete_folder_recursive_spec recDelStore 1 (by decide) (by decide) (by decide)).1⟩

theorem extractChildren_succ (k : Nat) (s : Store) (root : Nat) :
    extractChildren (k + 1) s root =
      (s.filter (fun i => i.parent_id == some root)).map (nodeOf k s) := rfl

theorem desc_id_lt {s : Store} {next a d : Nat} (hfresh : ∀ i ∈ s, i.id < next)
    (h : desc s a d) : d < next := by
  cases h with
  | single h =>
    obtain ⟨i, hi, hid, -⟩ := h
    exact hid ▸ hfresh i hi
  | tail _ h =>
    obtain ⟨i, hi, hid, -⟩ := h
    exact hid ▸ hfresh i hi

theorem not_descOrSelf_of_big {s : Store} {next a y : Nat}
    (hfresh : ∀ i ∈ s, i.id < next) (ha : a < next) (hy : next ≤ y) :
    ¬ descOrSelf s a y := by
  rintro (rfl | h)
  · exact absurd ha (Nat.not_lt_of_le hy)
  · exact absurd (desc_id_lt hfresh h) (Nat.not_lt_of_le hy)

theorem descOrSelf_lift {s : Store} {source c y : Nat}
    (hc : childStep s source c) (h : descOrSelf s c y) : descOrSelf s source y := by
  rcases h with rfl | h
  · exact Or.inr (Relation.TransGen.single hc)
  · exact Or.inr (Relation.TransGen.head hc h)

theorem chainBound_child {s : Store} {source c n : Nat}
    (hcb : chainBound s source (n + 1)) (hc : childStep s source c) :
    chainBound s c n := by
  intro l hl
  have := hcb (c :: l) (.cons hc hl)
  simpa [Nat.succ_lt_succ_iff] using this

theorem ext_stable : ∀ (d : Nat) (base extra : Store) (lo hi root : Nat),
    lo ≤ root → root < hi →
    (∀ j ∈ base, ∀ p, j.parent_id = some p → lo ≤ p → p < hi →
      (lo ≤ j.id ∧ j.id < hi)) →
    (∀ j ∈ extra, ∀ p, j.parent_id = some p → ¬(lo ≤ p ∧ p < hi)) →
    extractChildren d (base ++ extra) root = extractChildren d base root := by
  intro d
  induction d with
  | zero => intro base extra lo hi root _ _ _ _; rfl
  | succ d ih =>
    intro base extra lo hi root hlo hhi h1 h2
    rw [extractChildren_succ, extractChildren_succ, List.filter_append]
    have hex : extra.filter (fun i => i.parent_id == some root) = [] := by
      rw [List.filter_eq_nil_iff]
      intro j hj hpar
      exact h2 j hj root (by simpa using hpar) ⟨hlo, hhi⟩
    rw [hex, List.append_nil]
    refine List.map_congr_left ?_
    intro i hmemi
    obtain ⟨him, hip⟩ := List.mem_filter.mp hmemi
    have hip' : i.parent_id = some root := by simpa using hip
    obtain ⟨hilo, hihi⟩ := h1 i him root hip' hlo hhi
    unfold nodeOf
    cases hty : i.type with
    | folder => rw [ih base extra lo hi i.id hilo hihi h1 h2]
    | file => rfl

theorem pairspec_map {k : Nat} {s full : Store} {tu nfId : Nat} :
    ∀ {cs tops : List Item}, List.Forall₂ (PairSpec k s tu nfId full) cs tops →
      tops.map (nodeOf k full) = cs.map (nodeOf k s) := by
  intro cs tops h
  induction h with
  | nil => rfl
  | cons hpair _ ih =>
    simp only [List.map_cons, ih]
    congr 1
    obtain ⟨-, hname, -, hcase⟩ := hpair
    rcases hcase with ⟨hc, htop, hext⟩ | ⟨hc, htop, hfid, hsz⟩
    · simp [nodeOf, hc, htop, hname, hext]
    · simp [nodeOf, hc, htop, hname, hfid, hsz]

theorem copy_fold_spec (k : Nat) (s : Store) (next source tu nfId : Nat)
    (hfresh : ∀ i ∈ s, i.id < next)
    (hpv : ParentsValidP s)
    (hnf : next ≤ nfId) :
    ∀ (cs : List Item) (t1 : Store) (m1 : Nat),
      (∀ c ∈ cs, c ∈ s ∧ c.parent_id = some source) →
      (∀ c ∈ cs, c.type = ItemType.folder →
        ∀ (t2 : Store) (m2 : Nat), next ≤ m2 → nfId < m2 →
          (∀ j ∈ t2, next ≤ j.id ∧ j.id < m2 ∧
            ∀ p, j.parent_id = some p → p < m2 ∧ ¬ descOrSelf s c.id p) →
          ∃ u m', copy_folder_recursive (k + 1) (s ++ t2, m2) c.id tu (some nfId) =
              (s ++ t2 ++ u, m') ∧
            m2 ≤ m' ∧
            (∃ u', u = ⟨m2, tu, c.name, ItemType.folder, none, none, some nfId, m2⟩ :: u' ∧
              ∀ j ∈ u', ∃ p, j.parent_id = some p ∧ m2 ≤ p ∧ p < m') ∧
            (∀ j ∈ u, m2 ≤ j.id ∧ j.id < m' ∧ j.user_id = tu) ∧
            extractChildren k (s ++ t2 ++ u) m2 = extractChildren k s c.id) →
      (∀ j ∈ t1, next ≤ j.id ∧ j.id < m1 ∧
        ∀ p, j.parent_id = some p → p < m1 ∧ ¬ descOrSelf s source p) →
      next ≤ m1 → nfId < m1 →
      ∃ w m'', cs.foldl (fun st item =>
          if item.type == ItemType.folder then
            copy_folder_recursive (k + 1) st item.id tu (some nfId)
          else
            insertItem st.1 st.2 tu item.name ItemType.file
              item.file_id item.size (some nfId)) (s ++ t1, m1) =
          (s ++ (t1 ++ w), m'') ∧
        m1 ≤ m'' ∧
        (∀ j ∈ w, m1 ≤ j.id ∧ j.id < m'' ∧ j.user_id = tu ∧
          (j.parent_id = some nfId ∨
            ∃ p, j.parent_id = some p ∧ m1 ≤ p ∧ p < m'')) ∧
        List.Forall₂ (PairSpec k s tu nfId (s ++ (t1 ++ w))) cs
          (w.filter (fun i => i.parent_id == some nfId)) := by
  intro cs
  induction cs with
  | nil =>
    intro t1 m1 _ _ _ _ _
    refine ⟨[], m1, by simp, Nat.le_refl _, ?_, ?_⟩
    · intro j hj; cases hj
    · simp only [List.filter_nil, List.append_nil]
      exact List.Forall₂.nil
  | cons c cs' ih =>
    intro t1 m1 hcs HP ht1 hm1 hnfm
    obtain ⟨hc_mem, hc_par⟩ := hcs c (List.mem_cons_self _ _)
    have hcstep : childStep s source c.id := ⟨c, hc_mem, rfl, hc_par⟩
    have hsrc_lt : source < next := by
      obtain ⟨f, hf, hfid, -⟩ := hpv c hc_mem source hc_par
      exact hfid ▸ hfresh f hf
    have hcs2 : ∀ c2 ∈ cs', c2 ∈ s ∧ c2.parent_id = some source :=
      fun c2 hc2 => hcs c2 (List.mem_cons_of_mem _ hc2)
    by_cases hty : c.type == ItemType.folder
    · -- folder child: the recursive copy produces the clone subtree
      have hcty : c.type = ItemType.folder := by simpa using hty
      have ht1c : ∀ j ∈ t1, next ≤ j.id ∧ j.id < m1 ∧
          ∀ p, j.parent_id = some p → p < m1 ∧ ¬ descOrSelf s c.id p := by
        intro j hj
        obtain ⟨h1, h2, h3⟩ := ht1 j hj
        refine ⟨h1, h2, fun p hp => ?_⟩
        obtain ⟨h4, h5⟩ := h3 p hp
        exact ⟨h4, fun hd => h5 (descOrSelf_lift hcstep hd)⟩
      obtain ⟨u, m', heq, hm', ⟨u', hu, hu'⟩, hub, hext⟩ :=
        HP c (List.mem_cons_self _ _) hcty t1 m1 hm1 hnfm ht1c
      have hm1m' : m1 < m' := by
        have := (hub _ (hu ▸ List.mem_cons_self _ _)).2.1
        simpa using this
      have ht1u : ∀ j ∈ t1 ++ u, next ≤ j.id ∧ j.id < m' ∧
          ∀ p, j.parent_id = some p → p < m' ∧ ¬ descOrSelf s source p := by
        intro j hj
        rcases List.mem_append.mp hj with hj | hj
        · obtain ⟨h1, h2, h3⟩ := ht1 j hj
          refine ⟨h1, Nat.lt_of_lt_of_le h2 hm', fun p hp => ?_⟩
          obtain ⟨h4, h5⟩ := h3 p hp
          exact ⟨Nat.lt_of_lt_of_le h4 hm', h5⟩
        · obtain ⟨h1, h2, -⟩ := hub j hj
          refine ⟨Nat.le_trans hm1 h1, h2, fun p hp => ?_⟩
          have hj2 : j = (⟨m1, tu, c.name, ItemType.folder, none, none, some nfId, m1⟩ : Item)
              ∨ j ∈ u' := by
            rw [hu] at hj
            exact List.mem_cons.mp hj
          rcases hj2 with rfl | hj2
          · have hpn : nfId = p := Option.some.inj hp
            cases hpn
            exact ⟨Nat.lt_of_lt_of_le hnfm hm',
              not_descOrSelf_of_big hfresh hsrc_lt hnf⟩
          · obtain ⟨p2, hp2, hpl2, hpu2⟩ := hu' j hj2
            rw [hp2] at hp
            have hpp : p2 = p := Option.some.inj hp
            cases hpp
            exact ⟨hpu2, not_descOrSelf_of_big hfresh hsrc_lt (Nat.le_trans hm1 hpl2)⟩
      obtain ⟨w2, m'', hfold2, hm'', hw2, hfa2⟩ := ih (t1 ++ u) m'
        (fun c2 hc2 => hcs c2 (List.mem_cons_of_mem _ hc2))
        (fun c2 hc2 => HP c2 (List.mem_cons_of_mem _ hc2))
        ht1u (Nat.le_trans hm1 (Nat.le_of_lt hm1m')) (Nat.lt_trans hnfm hm1m')
      have hassoc1 : s ++ t1 ++ u = s ++ (t1 ++ u) := List.append_assoc _ _ _
      have hassoc2 : s ++ ((t1 ++ u) ++ w2) = s ++ (t1 ++ (u ++ w2)) := by
        rw [List.append_assoc]
      refine ⟨u ++ w2, m'', ?_, Nat.le_trans (Nat.le_of_lt hm1m') hm'', ?_, ?_⟩
      · -- the fold equation
        simp only [List.foldl_cons]
        rw [if_pos hty, heq, hassoc1, hfold2, hassoc2]
      · -- bounds for the new rows
        intro j hj
        rcases List.mem_append.mp hj with hj | hj
        · obtain ⟨h1, h2, h3⟩ := hub j hj
          refine ⟨h1, Nat.lt_of_lt_of_le h2 hm'', h3, ?_⟩
          have hj2 : j = (⟨m1, tu, c.name, ItemType.folder, none, none, some nfId, m1⟩ : Item)
              ∨ j ∈ u' := by
            rw [hu] at hj
            exact List.mem_cons.mp hj
          rcases hj2 with rfl | hj2
          · exact Or.inl rfl
          · obtain ⟨p2, hp2, hpl2, hpu2⟩ := hu' j hj2
            exact Or.inr ⟨p2, hp2, hpl2, Nat.lt_of_lt_of_le hpu2 hm''⟩
        · obtain ⟨h1, h2, h3, h4⟩ := hw2 j hj
          refine ⟨Nat.le_trans (Nat.le_of_lt hm1m') h1, h2, h3, ?_⟩
          rcases h4 with h4 | ⟨p2, hp2, hpl2, hpu2⟩
          · exact Or.inl h4
          · exact Or.inr ⟨p2, hp2, Nat.le_trans (Nat.le_of_lt hm1m') hpl2, hpu2⟩
      · -- the per-child pairing
        have hufilter : u.filter (fun i => i.parent_id == some nfId) =
            [⟨m1, tu, c.name, ItemType.folder, none, none, some nfId, m1⟩] := by
          rw [hu]
          rw [List.filter_cons_of_pos (by simp)]
          rw [List.filter_eq_nil_iff.mpr, List.cons_eq_cons]
          · exact ⟨rfl, rfl⟩
          · intro j hj hpr
            obtain ⟨p2, hp2, hpl2, -⟩ := hu' j hj
            rw [hp2] at hpr
            have : p2 = nfId := by simpa using hpr
            cases this
            exact absurd (Nat.lt_of_lt_of_le hnfm hpl2) (Nat.lt_irrefl _)
        rw [List.filter_append, hufilter]
        refine List.Forall₂.cons ?_ ?_
        · -- the clone heads the pairing
          refine ⟨rfl, rfl, rfl, Or.inl ⟨hcty, rfl, ?_⟩⟩
          have hbase : extractChildren k ((s ++ t1 ++ u) ++ w2) m1 =
              extractChildren k (s ++ t1 ++ u) m1 := by
            refine ext_stable k _ _ m1 m' m1 (Nat.le_refl _) hm1m' ?_ ?_
            · intro j hj p hp hlo hhi
              rcases List.mem_append.mp hj with hj | hj
              · rcases List.mem_append.mp hj with hj | hj
                · obtain ⟨f, hf, hfid, -⟩ := hpv j hj p hp
                  have : p < next := hfid ▸ hfresh f hf
                  exact absurd (Nat.le_trans hm1 hlo) (Nat.not_le_of_lt this)
                · obtain ⟨-, -, h3⟩ := ht1 j hj
                  exact absurd hlo (Nat.not_le_of_lt (h3 p hp).1)
              · obtain ⟨h1, h2, -⟩ := hub j hj
                exact ⟨h1, h2⟩
            · intro j hj p hp
              obtain ⟨-, -, -, h4⟩ := hw2 j hj
              rcases h4 with h4 | ⟨p2, hp2, hpl2, -⟩
              · rw [h4] at hp
                have : nfId = p := Option.some.inj hp
                cases this
                exact fun hc => absurd hc.1 (Nat.not_le_of_lt hnfm)
              · rw [hp2] at hp
                have : p2 = p := Option.some.inj hp
                cases this
                exact fun hc => absurd hc.2 (Nat.not_lt_of_le hpl2)
          have hfull : s ++ (t1 ++ (u ++ w2)) = (s ++ t1 ++ u) ++ w2 := by
            simp [List.append_assoc]
          rw [hfull, hbase, hext]
        · -- the tail pairing from the induction hypothesis
          have hst : s ++ ((t1 ++ u) ++ w2) = s ++ (t1 ++ (u ++ w2)) := by
            rw [List.append_assoc]
          rw [← hst]
          exact hfa2
    · -- file child: a single clone row is inserted
      have hcty : c.type = ItemType.file := by
        cases hc2 : c.type
        · rw [hc2] at hty; simp at hty
        · rfl
      have hfc : insertItem (s ++ t1) m1 tu c.name ItemType.file c.file_id c.size
          (some nfId) = ((s ++ t1) ++
            [⟨m1, tu, c.name, ItemType.file, c.file_id, c.size, some nfId, m1⟩], m1 + 1) := rfl
      have ht1f : ∀ j ∈ t1 ++
          [(⟨m1, tu, c.name, ItemType.file, c.file_id, c.size, some nfId, m1⟩ : Item)],
          next ≤ j.id ∧ j.id < m1 + 1 ∧
          ∀ p, j.parent_id = some p → p < m1 + 1 ∧ ¬ descOrSelf s source p := by
        intro j hj
        rcases List.mem_append.mp hj with hj | hj
        · obtain ⟨h1, h2, h3⟩ := ht1 j hj
          refine ⟨h1, Nat.lt_succ_of_lt h2, fun p hp => ?_⟩
          obtain ⟨h4, h5⟩ := h3 p hp
          exact ⟨Nat.lt_succ_of_lt h4, h5⟩
        · have hj2 : j = (⟨m1, tu, c.name, ItemType.file, c.file_id, c.size,
              some nfId, m1⟩ : Item) := by simpa using hj
          subst hj2
          refine ⟨hm1, Nat.lt_succ_self _, fun p hp => ?_⟩
          have hpn : nfId = p := Option.some.inj hp
          cases hpn
          exact ⟨Nat.lt_succ_of_lt hnfm, not_descOrSelf_of_big hfresh hsrc_lt hnf⟩
      obtain ⟨w2, m'', hfold2, hm'', hw2, hfa2⟩ := ih
        (t1 ++ [⟨m1, tu, c.name, ItemType.file, c.file_id, c.size, some nfId, m1⟩]) (m1 + 1)
        (fun c2 hc2 => hcs c2 (List.mem_cons_of_mem _ hc2))
        (fun c2 hc2 => HP c2 (List.mem_cons_of_mem _ hc2))
        ht1f (Nat.le_succ_of_le hm1) (Nat.lt_succ_of_lt hnfm)
      have hassoc1 : (s ++ t1) ++
          [(⟨m1, tu, c.name, ItemType.file, c.file_id, c.size, some nfId, m1⟩ : Item)] =
          s ++ (t1 ++ [⟨m1, tu, c.name, ItemType.file, c.file_id, c.size, some nfId, m1⟩]) :=
        List.append_assoc _ _ _
      have hassoc2 : s ++ ((t1 ++
          [(⟨m1, tu, c.name, ItemType.file, c.file_id, c.size, some nfId, m1⟩ : Item)]) ++ w2) =
          s ++ (t1 ++
            (⟨m1, tu, c.name, ItemType.file, c.file_id, c.size, some nfId, m1⟩ :: w2)) := by
        rw [List.append_assoc]
        simp
      refine ⟨⟨m1, tu, c.name, ItemType.file, c.file_id, c.size, some nfId, m1⟩ :: w2, m'',
        ?_, Nat.le_trans (Nat.le_succ _) hm'', ?_, ?_⟩
      · simp only [List.foldl_cons]
        rw [if_neg hty]
        rw [show (insertItem (s ++ t1, m1).1 (s ++ t1, m1).2 tu c.name ItemType.file
            c.file_id c.size (some nfId)) = ((s ++ t1) ++
            [⟨m1, tu, c.name, ItemType.file, c.file_id, c.size, some nfId, m1⟩], m1 + 1)
          from rfl]
        rw [hassoc1, hfold2, hassoc2]
      · intro j hj
        rcases List.mem_cons.mp hj with rfl | hj
        · exact ⟨Nat.le_refl _, Nat.lt_of_lt_of_le (Nat.lt_succ_self _) hm'',
            rfl, Or.inl rfl⟩
        · obtain ⟨h1, h2, h3, h4⟩ := hw2 j hj
          refine ⟨Nat.le_trans (Nat.le_succ _) h1, h2, h3, ?_⟩
          rcases h4 with h4 | ⟨p2, hp2, hpl2, hpu2⟩
          · exact Or.inl h4
          · exact Or.inr ⟨p2, hp2, Nat.le_trans (Nat.le_succ _) hpl2, hpu2⟩
      · rw [List.filter_cons_of_pos (by simp)]
        refine List.Forall₂.cons ?_ ?_
        · exact ⟨rfl, rfl, rfl, Or.inr ⟨hcty, rfl, rfl, rfl⟩⟩
        · have hst : s ++ ((t1 ++
              [(⟨m1, tu, c.name, ItemType.file, c.file_id, c.size, some nfId, m1⟩ : Item)])
                ++ w2) = s ++ (t1 ++
              (⟨m1, tu, c.name, ItemType.file, c.file_id, c.size, some nfId, m1⟩ :: w2)) := by
            rw [List.append_assoc]
            simp
          rw [← hst]
          exact hfa2

theorem find_src {s t : Store} {source : Nat}
    (hnd : (s.map Item.id).Nodup) {srcRow : Item}
    (hs : srcRow ∈ s) (hid : srcRow.id = source) :
    (s ++ t).find? (fun i => i.id == source) = some srcRow := by
  rw [List.find?_append]
  have h1 : s.find? (fun i => i.id == source) = some srcRow := by
    rcases hf : s.find? (fun i => i.id == source) with - | r
    · exact absurd (by simpa using List.find?_eq_none.mp hf srcRow hs) (by simp [hid])
    · have hr := List.mem_of_find?_eq_some hf
      have hrid : r.id = source := by simpa using List.find?_some hf
      rw [hf, row_unique hnd hr hs (hrid.trans hid.symm)]
  rw [h1]
  rfl

theorem copy_appends : ∀ (n : Nat) (s t : Store) (m next source tu : Nat)
    (q : Option Nat) (srcRow : Item),
    (∀ i ∈ s, i.id < next) → (s.map Item.id).Nodup → ParentsValidP s →
    chainBound s source (n + 1) → next ≤ m →
    (∀ j ∈ t, next ≤ j.id ∧ j.id < m ∧
      ∀ p, j.parent_id = some p → p < m ∧ ¬ descOrSelf s source p) →
    (∀ y, q = some y → ¬ descOrSelf s source y ∧ y < m) →
    srcRow ∈ s → srcRow.id = source →
    ∃ u m', copy_folder_recursive (n + 1) (s ++ t, m) source tu q = (s ++ t ++ u, m') ∧
      m ≤ m' ∧
      (∃ u', u = ⟨m, tu, srcRow.name, ItemType.folder, none, none, q, m⟩ :: u' ∧
        ∀ j ∈ u', ∃ p, j.parent_id = some p ∧ m ≤ p ∧ p < m') ∧
      (∀ j ∈ u, m ≤ j.id ∧ j.id < m' ∧ j.user_id = tu) ∧
      extractChildren n (s ++ t ++ u) m = extractChildren n s source := by
  intro n
  induction n with
  | zero =>
    intro s t m next source tu q srcRow hfresh hnd hpv hcb hm ht hq hs hid
    have hlt : source < next := hid ▸ hfresh srcRow hs
    have hfind := find_src (t := t) hnd hs hid
    have hkids : ((s ++ t) ++
        [(⟨m, tu, srcRow.name, ItemType.folder, none, none, q, m⟩ : Item)]).filter
          (fun i => i.parent_id == some source) = [] := by
      rw [List.filter_eq_nil_iff]
      intro j hj hpr
      have hpr' : j.parent_id = some source := by simpa using hpr
      rcases List.mem_append.mp hj with hj | hj
      · rcases List.mem_append.mp hj with hj | hj
        · have hcstep : childStep s source j.id := ⟨j, hj, rfl, hpr'⟩
          have := hcb [j.id] (.cons hcstep .nil)
          simp at this
        · exact absurd (Or.inl rfl : descOrSelf s source source)
            ((ht j hj).2.2 source hpr').2
      · have hj2 : j = (⟨m, tu, srcRow.name, ItemType.folder, none, none, q, m⟩ : Item) := by
          simpa using hj
        subst hj2
        have hq2 := (hq source hpr').1
        exact hq2 (Or.inl rfl)
    refine ⟨[⟨m, tu, srcRow.name, ItemType.folder, none, none, q, m⟩], m + 1, ?_,
      Nat.le_succ _, ⟨[], rfl, fun j hj => absurd hj (List.not_mem_nil _)⟩, ?_, rfl⟩
    · unfold copy_folder_recursive
      rw [hfind]
      show (((s ++ t) ++
          [(⟨m, tu, srcRow.name, ItemType.folder, none, none, q, m⟩ : Item)]).filter
            (fun i => i.parent_id == some source)).foldl
          (fun st item => if item.type == ItemType.folder then
              copy_folder_recursive 0 st item.id tu (some m)
            else insertItem st.1 st.2 tu item.name ItemType.file
              item.file_id item.size (some m))
          ((s ++ t) ++ [⟨m, tu, srcRow.name, ItemType.folder, none, none, q, m⟩], m + 1) = _
      rw [hkids]
      rfl
    · intro j hj
      have hj2 : j = (⟨m, tu, srcRow.name, ItemType.folder, none, none, q, m⟩ : Item) := by
        simpa using hj
      subst hj2
      exact ⟨Nat.le_refl _, Nat.lt_succ_self _, rfl⟩
  | succ k ih =>
    intro s t m next source tu q srcRow hfresh hnd hpv hcb hm ht hq hs hid
    have hlt : source < next := hid ▸ hfresh srcRow hs
    have hfind := find_src (t := t) hnd hs hid
    -- the children of the source in the extended store are its children in s
    have hkids : ((s ++ t) ++
        [(⟨m, tu, srcRow.name, ItemType.folder, none, none, q, m⟩ : Item)]).filter
          (fun i => i.parent_id == some source) =
        s.filter (fun i => i.parent_id == some source) := by
      rw [List.filter_append, List.filter_append]
      have h2 : t.filter (fun i => i.parent_id == some source) = [] := by
        rw [List.filter_eq_nil_iff]
        intro j hj hpr
        exact absurd (Or.inl rfl : descOrSelf s source source)
          ((ht j hj).2.2 source (by simpa using hpr)).2
      have h3 : [(⟨m, tu, srcRow.name, ItemType.folder, none, none, q, m⟩ : Item)].filter
          (fun i => i.parent_id == some source) = [] := by
        rw [List.filter_eq_nil_iff]
        intro j hj hpr
        have hj2 : j = (⟨m, tu, srcRow.name, ItemType.folder, none, none, q, m⟩ : Item) := by
          simpa using hj
        subst hj2
        exact (hq source (by simpa using hpr)).1 (Or.inl rfl)
      rw [h2, h3, List.append_nil, List.append_nil]
    have hbody : copy_folder_recursive (k + 1 + 1) (s ++ t, m) source tu q =
        (s.filter (fun i => i.parent_id == some source)).foldl
          (fun st item => if item.type == ItemType.folder then
              copy_folder_recursive (k + 1) st item.id tu (some m)
            else insertItem st.1 st.2 tu item.name ItemType.file
              item.file_id item.size (some m))
          ((s ++ t) ++ [⟨m, tu, srcRow.name, ItemType.folder, none, none, q, m⟩], m + 1) := by
      unfold copy_folder_recursive
      rw [hfind]
      show (((s ++ t) ++
          [(⟨m, tu, srcRow.name, ItemType.folder, none, none, q, m⟩ : Item)]).filter
            (fun i => i.parent_id == some source)).foldl
          (fun st item => if item.type == ItemType.folder then
              copy_folder_recursive (k + 1) st item.id tu (some m)
            else insertItem st.1 st.2 tu item.name ItemType.file
              item.file_id item.size (some m))
          ((s ++ t) ++ [⟨m, tu, srcRow.name, ItemType.folder, none, none, q, m⟩], m + 1) = _
      rw [hkids]
      rfl
    have hcsF : ∀ c ∈ s.filter (fun i => i.parent_id == some source),
        c ∈ s ∧ c.parent_id = some source := by
      intro c hc
      exact ⟨(List.mem_filter.mp hc).1, by simpa using (List.mem_filter.mp hc).2⟩
    have HP : ∀ c ∈ s.filter (fun i => i.parent_id == some source),
        c.type = ItemType.folder →
        ∀ (t2 : Store) (m2 : Nat), next ≤ m2 → m < m2 →
          (∀ j ∈ t2, next ≤ j.id ∧ j.id < m2 ∧
            ∀ p, j.parent_id = some p → p < m2 ∧ ¬ descOrSelf s c.id p) →
          ∃ u m', copy_folder_recursive (k + 1) (s ++ t2, m2) c.id tu (some m) =
              (s ++ t2 ++ u, m') ∧
            m2 ≤ m' ∧
            (∃ u', u = ⟨m2, tu, c.name, ItemType.folder, none, none, some m, m2⟩ :: u' ∧
              ∀ j ∈ u', ∃ p, j.parent_id = some p ∧ m2 ≤ p ∧ p < m') ∧
            (∀ j ∈ u, m2 ≤ j.id ∧ j.id < m' ∧ j.user_id = tu) ∧
            extractChildren k (s ++ t2 ++ u) m2 = extractChildren k s c.id := by
      intro c hc hcty t2 m2 hm2 hmm2 ht2
      obtain ⟨hcmem, hcpar⟩ := hcsF c hc
      have hcstep : childStep s source c.id := ⟨c, hcmem, rfl, hcpar⟩
      exact ih s t2 m2 next c.id tu (some m) c hfresh hnd hpv
        (chainBound_child hcb hcstep) hm2 ht2
        (fun y hy => by
          cases Option.some.inj hy
          exact ⟨not_descOrSelf_of_big hfresh (hfresh c hcmem) hm, hmm2⟩)
        hcmem rfl
    have ht1 : ∀ j ∈ t ++
        [(⟨m, tu, srcRow.name, ItemType.folder, none, none, q, m⟩ : Item)],
        next ≤ j.id ∧ j.id < m + 1 ∧
        ∀ p, j.parent_id = some p → p < m + 1 ∧ ¬ descOrSelf s source p := by
      intro j hj
      rcases List.mem_append.mp hj with hj | hj
      · obtain ⟨h1, h2, h3⟩ := ht j hj
        refine ⟨h1, Nat.lt_succ_of_lt h2, fun p hp => ?_⟩
        obtain ⟨h4, h5⟩ := h3 p hp
        exact ⟨Nat.lt_succ_of_lt h4, h5⟩
      · have hj2 : j = (⟨m, tu, srcRow.name, ItemType.folder, none, none, q, m⟩ : Item) := by
          simpa using hj
        subst hj2
        refine ⟨hm, Nat.lt_succ_self _, fun p hp => ?_⟩
        obtain ⟨h5, h6⟩ := hq p hp
        exact ⟨Nat.lt_succ_of_lt h6, h5⟩
    obtain ⟨w, m'', hfold, hm'', hw, hfa⟩ := copy_fold_spec k s next source tu m
      hfresh hpv hm (s.filter (fun i => i.parent_id == some source))
      (t ++ [⟨m, tu, srcRow.name, ItemType.folder, none, none, q, m⟩]) (m + 1)
      hcsF HP ht1 (Nat.le_succ_of_le hm) (Nat.lt_succ_self m)
    have hassoc1 : (s ++ t) ++
        [(⟨m, tu, srcRow.name, ItemType.folder, none, none, q, m⟩ : Item)] =
        s ++ (t ++ [⟨m, tu, srcRow.name, ItemType.folder, none, none, q, m⟩]) :=
      List.append_assoc _ _ _
    have hst : s ++ ((t ++
        [(⟨m, tu, srcRow.name, ItemType.folder, none, none, q, m⟩ : Item)]) ++ w) =
        s ++ t ++ (⟨m, tu, srcRow.name, ItemType.folder, none, none, q, m⟩ :: w) := by
      rw [List.append_assoc t _ w, List.singleton_append, ← List.append_assoc s t _]
    refine ⟨⟨m, tu, srcRow.name, ItemType.folder, none, none, q, m⟩ :: w, m'', ?_,
      Nat.le_trans (Nat.le_succ _) hm'', ⟨w, rfl, ?_⟩, ?_, ?_⟩
    · rw [hbody, hassoc1, hfold, hst]
    · -- tail rows of the clone all hang from fresh folders
      intro j hj
      obtain ⟨-, h2, -, h4⟩ := hw j hj
      rcases h4 with h4 | ⟨p2, hp2, hpl2, hpu2⟩
      · exact ⟨m, h4, Nat.le_refl _, Nat.lt_of_lt_of_le (Nat.lt_succ_self _) hm''⟩
      · exact ⟨p2, hp2, Nat.le_trans (Nat.le_succ _) hpl2, hpu2⟩
    · -- id, ownership bounds for all new rows
      intro j hj
      rcases List.mem_cons.mp hj with rfl | hj
      · exact ⟨Nat.le_refl _, Nat.lt_of_lt_of_le (Nat.lt_succ_self _) hm'', rfl⟩
      · obtain ⟨h1, h2, h3, -⟩ := hw j hj
        exact ⟨Nat.le_trans (Nat.le_succ _) h1, h2, h3⟩
    · -- extraction equality at the top of the clone
      rw [extractChildren_succ, extractChildren_succ]
      have hf0 : (s ++ t ++
          (⟨m, tu, srcRow.name, ItemType.folder, none, none, q, m⟩ :: w)).filter
            (fun i => i.parent_id == some m) =
          w.filter (fun i => i.parent_id == some m) := by
        rw [List.filter_append, List.filter_append]
        have hfs : s.filter (fun i => i.parent_id == some m) = [] := by
          rw [List.filter_eq_nil_iff]
          intro j hj hpr
          obtain ⟨f, hf, hfid, -⟩ := hpv j hj m (by simpa using hpr)
          have := hfid ▸ hfresh f hf
          omega
        have hft : t.filter (fun i => i.parent_id == some m) = [] := by
          rw [List.filter_eq_nil_iff]
          intro j hj hpr
          exact absurd ((ht j hj).2.2 m (by simpa using hpr)).1 (Nat.lt_irrefl _)
        have hfnf : (⟨m, tu, srcRow.name, ItemType.folder, none, none, q, m⟩ :: w).filter
            (fun i => i.parent_id == some m) =
            w.filter (fun i => i.parent_id == some m) := by
          rw [List.filter_cons]
          have hpred : ((⟨m, tu, srcRow.name, ItemType.folder, none, none, q, m⟩ : Item).parent_id
              == some m) = false := by
            rcases hqc : q with - | y
            · rfl
            · have := (hq y hqc).2
              simp only [beq_eq_false_iff_ne, ne_eq, Option.some.injEq]
              omega
          rw [hpred]
          simp
        rw [hfs, hft, hfnf]
        rfl
      rw [hf0, ← hst]
      exact pairspec_map hfa

/-- C4 — recursive copy.  For an absent source the call is a no-op; for an
existing source folder row it appends only fresh rows: a new folder with
the source's name, owned by the target user, placed under `target_parent`,
followed by the clones of the subtree, every new row owned by the target
user and carrying a fresh id; and the extracted subtree below the new
folder (names, folder/file structure, file handles, sizes, in order)
equals the extracted subtree below the source.  Hypotheses are the counter
invariant (all ids below `next`), the data-model invariants, and that
`target_parent` is an old id outside the source's subtree. -/
theorem copy_folder_recursive_spec (s : Store) (next source tu : Nat) (tp : Option Nat)
    (hfresh : ∀ i ∈ s, i.id < next)
    (hnd : (s.map Item.id).Nodup)
    (hpv : parentsValidB s = true)
    (hrt : rootedB s = true)
    (htp : ∀ y, tp = some y → y < next ∧ ¬ descOrSelf s source y) :
    ((∀ i ∈ s, i.id ≠ source) →
      copy_folder_recursive_api s next source tu tp = (s, next)) ∧
    (∀ srcRow, srcRow ∈ s → srcRow.id = source →
      ∃ u next', copy_folder_recursive_api s next source tu tp = (s ++ u, next') ∧
        next ≤ next' ∧
        (∃ u', u = ⟨next, tu, srcRow.name, ItemType.folder, none, none, tp, next⟩ :: u') ∧
        (∀ j ∈ u, next ≤ j.id ∧ j.id < next' ∧ j.user_id = tu) ∧
        extractChildren s.length (s ++ u) next = extractChildren s.length s source) := by
  constructor
  · intro hnone
    unfold copy_folder_recursive_api
    unfold copy_folder_recursive
    have hfind : s.find? (fun i => i.id == source) = none := by
      rw [List.find?_eq_none]
      intro x hx
      simpa using hnone x hx
    rw [hfind]
  · intro srcRow hs hid
    have heqs : s ++ ([] : Store) = s := List.append_nil s
    obtain ⟨u, m', heq, hm', ⟨u', hu, -⟩, hub, hext⟩ :=
      copy_appends s.length s [] next next source tu tp srcRow hfresh hnd
        (parentsValidP_of_B hpv)
        (chainBound_init (acyclic_of_rootedB hnd hrt) source)
        (Nat.le_refl _)
        (fun j hj => absurd hj (List.not_mem_nil _))
        (fun y hy => ⟨(htp y hy).2, Nat.lt_of_lt_of_le (htp y hy).1 (Nat.le_refl _)⟩)
        hs hid
    rw [heqs] at heq hext
    refine ⟨u, m', heq, hm', ⟨u', hu⟩, fun j hj => hub j hj, hext⟩

/-- Witness for `copy_folder_recursive_spec`: copying folder 0 for user 9
to the root appends a fresh isomorphic subtree. -/
theorem copy_folder_recursive_spec_witness :
    ((∀ i ∈ copyDemoStore, i.id < 2) ∧ (copyDemoStore.map Item.id).Nodup ∧
      parentsValidB copyDemoStore = true ∧ rootedB copyDemoStore = true) ∧
    ∃ u next', copy_folder_recursive_api copyDemoStore 2 0 9 none =
        (copyDemoStore ++ u, next') ∧
      2 ≤ next' ∧
      (∃ u', u = ⟨2, 9, ("F"), ItemType.folder, none, none, none, 2⟩ :: u') ∧
      (∀ j ∈ u, 2 ≤ j.id ∧ j.id < next' ∧ j.user_id = 9) ∧
      extractChildren copyDemoStore.length (copyDemoStore ++ u) 2 =
        extractChildren copyDemoStore.length copyDemoStore 0 :=
  ⟨⟨by decide, by decide, by decide, by decide⟩,
    (copy_folder_recursive_spec copyDemoStore 2 0 9 none (by decide) (by decide)
      (by decide) (by decide) (fun y h => nomatch h)).2
      ⟨0, 1, ("F"), ItemType.folder, none, none, none, 0⟩ (by decide) rfl⟩

end TgCloud
